import Mathlib

/-!
# read-each-line

A shallow embedding of `read-each-line.js` (`getLine` and `readEachLine`) and
the properties of it that its specification states.

* A `Buffer` is a list of bytes (natural numbers below 256).
* The platform pieces the source calls are parameters: `EOL` (`os.EOL`),
  `toStr` (`Buffer.prototype.toString()` called with no argument) and `fill`
  (the initial content `Buffer.alloc(size, fill)` gives a fresh buffer).
* The effects of `readEachLine` (opening, reading, calling `processline`,
  closing) are kept in an explicit `World`: the state of the callback and the
  log of the events so far.
-/

namespace ReadEachLine

/-! ## Data model -/

/-- A node `Buffer`: a sequence of bytes. -/
abbrev Buffer := List Nat

/-- The one-byte terminator, `os.EOL` on POSIX. -/
def LF : Buffer := [0x0a]

/-- The two-byte terminator, `os.EOL` on Windows. -/
def CRLF : Buffer := [0x0d, 0x0a]

/-- The object literal `{ line, newBuffer }` that `getLine` returns. -/
structure LineObj (T : Type) where
  line : T
  newBuffer : Buffer
deriving Repr, DecidableEq

/-- `buffer.subarray(start, stop)` for indices `0 ≤ start`, `0 ≤ stop`:
the bytes at `start ≤ j < stop`, both ends clamped to the length. -/
def subarray (buffer : Buffer) (start stop : Nat) : Buffer :=
  (buffer.take stop).drop start

/-! ## `getLine` -/

/-- The `for (i = buffer.length - 1; i > -1; i--)` loop of `getLine`, with the
loop variable shifted by one: `getLineLoop … (i + 1)` is the iteration at
index `i`, and `getLineLoop … 0` is the exit of the loop (`return null`). -/
def getLineLoop {T : Type} (toStr : Buffer → T) (EOL : Buffer) (buffer : Buffer) :
    Nat → Option (LineObj T)
  | 0 => none
  | i + 1 =>
    if buffer[i]? = some 0x0a ∨ i = 0 then
      let start := i + 1
      let stop := if EOL.length > 1 then i - 1 else i
      let start := if i = 0 then 0 else start
      let stop := if i = 0 then 0 else stop
      some { line := toStr (subarray buffer start buffer.length),
             newBuffer := subarray buffer 0 stop }
    else
      getLineLoop toStr EOL buffer i

/-- `getLine(buffer)`: get a line from the buffer and return it with the
remaining buffer; `none` is `null`. -/
def getLine {T : Type} (toStr : Buffer → T) (EOL : Buffer) (buffer : Buffer) :
    Option (LineObj T) :=
  getLineLoop toStr EOL buffer buffer.length

/-- Every result of the scan started at `n` leaves a remainder shorter than `n`. -/
theorem getLineLoop_newBuffer_length_lt {T : Type} (toStr : Buffer → T) (EOL buffer : Buffer)
    (n : Nat) (o : LineObj T) (h : getLineLoop toStr EOL buffer n = some o) :
    o.newBuffer.length < n := by
  induction n with
  | zero => simp [getLineLoop] at h
  | succ i ih =>
    unfold getLineLoop at h
    split at h
    · injection h with h
      subst h
      have hle := List.length_take_le
        (if i = 0 then 0 else if EOL.length > 1 then i - 1 else i) buffer
      simp only [subarray, List.drop_zero]
      split_ifs at hle ⊢ <;> omega
    · exact Nat.lt_succ_of_lt (ih h)

/-- The remainder `getLine` returns is strictly shorter than the buffer: this is
what makes the drain loop `while (lineObj = getLine(curBuffer))` terminate. -/
theorem getLine_newBuffer_length_lt {T : Type} (toStr : Buffer → T) (EOL buffer : Buffer)
    (o : LineObj T) (h : getLine toStr EOL buffer = some o) :
    o.newBuffer.length < buffer.length :=
  getLineLoop_newBuffer_length_lt toStr EOL buffer buffer.length o h

/-! ## Effects -/

/-- What `readEachLine` does to the outside world, one event per call:
`fs.openSync`, `fs.readSync(fd, readBuffer, 0, length, position)`,
`processline(line)` and `fs.closeSync`. -/
inductive Event (T : Type) where
  | openSync : Event T
  | readSync (length position : Nat) : Event T
  | processline (line : T) : Event T
  | closeSync : Event T
deriving Repr, DecidableEq

/-- What `readEachLine` can throw: its own `Error("no such file or directory …")`,
or whatever `processline` threw. -/
inductive Error (ε : Type) where
  | noSuchFile : Error ε
  | thrown (e : ε) : Error ε
deriving Repr, DecidableEq

/-- The state a run threads through: the state of the caller's callback and the
log of the events so far, oldest first. -/
structure World (σ T : Type) where
  cb : σ
  log : List (Event T)

/-- The caller's `processline`: from its state and the line, its next state and
the error it throws, if any. -/
abbrev Callback (ε σ T : Type) := σ → T → σ × Option ε

/-- One call `processline(line)`: the call is logged, the callback's state moves
on, and an error it throws propagates. -/
def callProcessline {ε σ T : Type} (processline : Callback ε σ T) (line : T)
    (w : World σ T) : Except (Error ε) Unit × World σ T :=
  let r := processline w.cb line
  let w1 : World σ T := { cb := r.1, log := w.log ++ [Event.processline line] }
  match r.2 with
  | some e => (.error (.thrown e), w1)
  | none => (.ok (), w1)

/-- The drain loop
`while (lineObj = getLine(curBuffer)) { curBuffer = lineObj.newBuffer; processline(lineObj.line); }`;
it returns `curBuffer` as the loop leaves it. -/
def drain {ε σ T : Type} (processline : Callback ε σ T) (toStr : Buffer → T) (EOL : Buffer)
    (curBuffer : Buffer) (w : World σ T) : Except (Error ε) Buffer × World σ T :=
  match h : getLine toStr EOL curBuffer with
  | none => (.ok curBuffer, w)
  | some lineObj =>
    match callProcessline processline lineObj.line w with
    | (.error e, w1) => (.error e, w1)
    | (.ok _, w1) => drain processline toStr EOL lineObj.newBuffer w1
termination_by curBuffer.length
decreasing_by exact getLine_newBuffer_length_lt toStr EOL curBuffer lineObj h

/-- `buf_alloc(buf_size)`, that is `Buffer.alloc(buf_size, encoding)`: the
encoding lands in the `fill` argument, so the fresh buffer holds `buf_size`
bytes decided by the encoding string (`fill encoding j` is the byte at `j`). -/
def buf_alloc (fill : String → Nat → Nat) (encoding : String) (buf_size : Nat) : Buffer :=
  (List.range buf_size).map (fill encoding)

/-- `fs.readSync(fd, buffer, offset, length, position)`: the bytes of the file
at `position ≤ j < position + length` overwrite `buffer` from `offset` on. -/
def readSync (file : Buffer) (buffer : Buffer) (offset length position : Nat) : Buffer :=
  let data := subarray file position (position + length)
  buffer.take offset ++ data ++ buffer.drop (offset + data.length)

/-- One fetch as both loops of `readEachLine` do it: allocate `readBuffer`, read
`length` bytes at `position` into it, append it to `curBuffer`, drain. -/
def fetchAndDrain {ε σ T : Type} (processline : Callback ε σ T) (toStr : Buffer → T)
    (EOL : Buffer) (fill : String → Nat → Nat) (encoding : String) (file : Buffer)
    (length position : Nat) (curBuffer : Buffer) (w : World σ T) :
    Except (Error ε) Buffer × World σ T :=
  let readBuffer := buf_alloc fill encoding length
  let readBuffer := readSync file readBuffer 0 length position
  let w1 : World σ T := { cb := w.cb, log := w.log ++ [Event.readSync length position] }
  let curBuffer := curBuffer ++ readBuffer
  drain processline toStr EOL curBuffer w1

/-- The loop `for (var i = 0; i < numOfLoops; i++) { … }`; it returns the `i`
and the `curBuffer` it ends with. -/
def forLoop {ε σ T : Type} (processline : Callback ε σ T) (toStr : Buffer → T)
    (EOL : Buffer) (fill : String → Nat → Nat) (encoding : String) (file : Buffer)
    (bufferSize numOfLoops : Nat) (i : Nat) (curBuffer : Buffer) (w : World σ T) :
    Except (Error ε) (Nat × Buffer) × World σ T :=
  if i < numOfLoops then
    match fetchAndDrain processline toStr EOL fill encoding file bufferSize (bufferSize * i)
        curBuffer w with
    | (.error e, w1) => (.error e, w1)
    | (.ok curBuffer1, w1) =>
      forLoop processline toStr EOL fill encoding file bufferSize numOfLoops (i + 1) curBuffer1 w1
  else
    (.ok (i, curBuffer), w)
termination_by numOfLoops - i

/-- `Math.floor(fsize / bufferSize)` on sizes; `none` is `NaN`, the value of
`0 / 0`. A positive size over zero (`Infinity`) does not arise for a chunk size
of at least 1, and the chunk size of the source is `64 * 1024`: `bufferSize` is
then zero only when `fsize` is. -/
def floorDiv (fsize bufferSize : Nat) : Option Nat :=
  if bufferSize = 0 then none else some (fsize / bufferSize)

/-- `fsize % bufferSize` on sizes; `none` is `NaN`, the value of `x % 0`. -/
def jsMod (fsize bufferSize : Nat) : Option Nat :=
  if bufferSize = 0 then none else some (fsize % bufferSize)

/-- `readEachLine(path, encoding, processline)` with the chunk size (the
constant `64 * 1024` of the source) as a parameter. `file` is the content at
`path` (`none`: no such file), `encoding` is `none` when the caller left it out.
`i < NaN` and `NaN > 0` are false, so with `numOfLoops = NaN` the loop body
never runs and with `remainder = NaN` the remainder is not read. -/
def readEachLineWith {ε σ T : Type} (chunkSize : Nat) (EOL : Buffer) (toStr : Buffer → T)
    (fill : String → Nat → Nat) (file : Option Buffer) (encoding : Option String)
    (processline : Callback ε σ T) (w : World σ T) : Except (Error ε) Unit × World σ T :=
  let encoding := encoding.getD "utf8"
  let bufferSize := chunkSize
  let curBuffer := buf_alloc fill encoding 0
  match file with
  | none => (.error .noSuchFile, w)
  | some file =>
    let fsize := file.length
    let bufferSize := if fsize < chunkSize then fsize else bufferSize
    let numOfLoops := floorDiv fsize bufferSize
    let remainder := jsMod fsize bufferSize
    let w1 : World σ T := { cb := w.cb, log := w.log ++ [Event.openSync] }
    match forLoop processline toStr EOL fill encoding file bufferSize (numOfLoops.getD 0) 0
        curBuffer w1 with
    | (.error e, w2) => (.error e, w2)
    | (.ok (i, curBuffer2), w2) =>
      match (if remainder.any (· > 0) then
          fetchAndDrain processline toStr EOL fill encoding file (remainder.getD 0)
            (bufferSize * i) curBuffer2 w2
        else (.ok curBuffer2, w2)) with
      | (.error e, w3) => (.error e, w3)
      | (.ok curBuffer3, w3) =>
        match (if curBuffer3.length ≠ 0 then callProcessline processline (toStr curBuffer3) w3
          else (.ok (), w3)) with
        | (.error e, w4) => (.error e, w4)
        | (.ok _, w4) => (.ok (), { cb := w4.cb, log := w4.log ++ [Event.closeSync] })

/-- The constant `chunkSize = 64 * 1024` of the source. -/
def chunkSize : Nat := 64 * 1024

/-- `readEachLine(path, encoding, processline)` as the module exports it. -/
def readEachLine {ε σ T : Type} (EOL : Buffer) (toStr : Buffer → T)
    (fill : String → Nat → Nat) (file : Option Buffer) (encoding : Option String)
    (processline : Callback ε σ T) (w : World σ T) : Except (Error ε) Unit × World σ T :=
  readEachLineWith chunkSize EOL toStr fill file encoding processline w

/-! ## Observations of a run -/

/-- The lines passed to `processline`, in call order. -/
def calls {T : Type} (log : List (Event T)) : List T :=
  log.filterMap fun e => match e with
    | .processline line => some line
    | _ => none

/-- The read requests `(position, length)`, in the order they were issued. -/
def reads {T : Type} (log : List (Event T)) : List (Nat × Nat) :=
  log.filterMap fun e => match e with
    | .readSync length position => some (position, length)
    | _ => none

/-- How many times the file handle was opened. -/
def opens {T : Type} (log : List (Event T)) : Nat :=
  (log.filter fun e => match e with
    | .openSync => true
    | _ => false).length

/-- How many times the file handle was closed. -/
def closes {T : Type} (log : List (Event T)) : Nat :=
  (log.filter fun e => match e with
    | .closeSync => true
    | _ => false).length

/-- A `processline` that never throws and keeps no state. -/
def quiet {T : Type} : Callback Empty Unit T := fun _ _ => ((), none)

/-- The run of `readEachLineWith` on an existing file with a callback that never
throws, started from an empty log. -/
def runWith {T : Type} (chunkSize : Nat) (EOL : Buffer) (toStr : Buffer → T)
    (fill : String → Nat → Nat) (encoding : Option String) (file : Buffer) :
    Except (Error Empty) Unit × World Unit T :=
  readEachLineWith chunkSize EOL toStr fill (some file) encoding quiet { cb := (), log := [] }

/-- The lines `readEachLineWith` passes to `processline`, in call order, when no
call throws. -/
def emittedWith {T : Type} (chunkSize : Nat) (EOL : Buffer) (toStr : Buffer → T)
    (fill : String → Nat → Nat) (encoding : Option String) (file : Buffer) : List T :=
  calls (runWith chunkSize EOL toStr fill encoding file).2.log

/-- The lines `readEachLine` passes to `processline`, in call order, when no
call throws. -/
def emitted {T : Type} (EOL : Buffer) (toStr : Buffer → T)
    (fill : String → Nat → Nat) (encoding : Option String) (file : Buffer) : List T :=
  emittedWith chunkSize EOL toStr fill encoding file

/-- The read requests `(position, length)` `readEachLine` issues, in order, when
no call throws. -/
def requests {T : Type} (EOL : Buffer) (toStr : Buffer → T)
    (fill : String → Nat → Nat) (encoding : Option String) (file : Buffer) : List (Nat × Nat) :=
  reads (runWith chunkSize EOL toStr fill encoding file).2.log

/-! ## The run of `readEachLine` as a script of events -/

/-- The lines the drain loop takes out of `curBuffer`, in the order it takes
them: the loop of `drain` without the calls. -/
def drainLines {T : Type} (toStr : Buffer → T) (EOL : Buffer) (curBuffer : Buffer) : List T :=
  match h : getLine toStr EOL curBuffer with
  | none => []
  | some lineObj => lineObj.line :: drainLines toStr EOL lineObj.newBuffer
termination_by curBuffer.length
decreasing_by exact getLine_newBuffer_length_lt toStr EOL curBuffer lineObj h

/-- Running a list of events in order: a `processline` event is a call of the
callback, which may throw and end the run; any other event is just logged. -/
def runScript {ε σ T : Type} (processline : Callback ε σ T) :
    List (Event T) → World σ T → Except (Error ε) Unit × World σ T
  | [], w => (.ok (), w)
  | .processline line :: rest, w =>
    match callProcessline processline line w with
    | (.error e, w1) => (.error e, w1)
    | (.ok _, w1) => runScript processline rest w1
  | .openSync :: rest, w =>
    runScript processline rest { cb := w.cb, log := w.log ++ [Event.openSync] }
  | .closeSync :: rest, w =>
    runScript processline rest { cb := w.cb, log := w.log ++ [Event.closeSync] }
  | .readSync length position :: rest, w =>
    runScript processline rest { cb := w.cb, log := w.log ++ [Event.readSync length position] }

/-- The result of a run with its value replaced. -/
def withValue {ε σ T α β : Type} (b : β) (r : Except (Error ε) α × World σ T) :
    Except (Error ε) β × World σ T :=
  match r with
  | (.error e, w) => (.error e, w)
  | (.ok _, w) => (.ok b, w)

/-- The read requests `(position, length)` of a run over a file of `fsize`
bytes, in the order the two loops of `readEachLine` issue them. -/
def chunkPlan (chunkSize fsize : Nat) : List (Nat × Nat) :=
  let bufferSize := if fsize < chunkSize then fsize else chunkSize
  if bufferSize = 0 then []
  else
    (List.range (fsize / bufferSize)).map (fun i => (bufferSize * i, bufferSize)) ++
      (if fsize % bufferSize > 0 then [(bufferSize * (fsize / bufferSize), fsize % bufferSize)]
       else [])

/-- The bytes a read request fetches. -/
def chunkAt (file : Buffer) (request : Nat × Nat) : Buffer :=
  subarray file request.1 (request.1 + request.2)

/-- The events of one fetch: the read, then one call per line drained from the
fetched chunk. -/
def chunkScript {T : Type} (toStr : Buffer → T) (EOL : Buffer) (file : Buffer)
    (request : Nat × Nat) : List (Event T) :=
  Event.readSync request.2 request.1 ::
    (drainLines toStr EOL (chunkAt file request)).map Event.processline

/-- The events of a whole run in which no call throws. -/
def script {T : Type} (chunkSize : Nat) (toStr : Buffer → T) (EOL : Buffer) (file : Buffer) :
    List (Event T) :=
  [Event.openSync] ++
    ((chunkPlan chunkSize file.length).map (chunkScript toStr EOL file)).flatten ++
    [Event.closeSync]

/-! ## Inputs and decoders the claims name -/

/-- A file of 196608 bytes, exactly three chunks of 65536: a first line of 65546
bytes `a`, a newline, and a last line of 131061 bytes `b`. The first line
crosses the first chunk boundary and the last line the second. -/
def threeChunkFile : Buffer :=
  List.replicate 65546 97 ++ 0x0a :: List.replicate 131061 98

/-- Node's `buf.toString('latin1')`: one character per byte, the character whose
code is the byte. -/
def latin1Decode (b : Buffer) : String :=
  String.mk (b.map Char.ofNat)

/-- One lowercase hexadecimal digit. -/
def hexDigit (n : Nat) : Char :=
  if n < 10 then Char.ofNat (48 + n) else Char.ofNat (87 + n)

/-- Node's `buf.toString('hex')`: two lowercase hexadecimal digits per byte. -/
def hexDecode (b : Buffer) : String :=
  String.mk (b.flatMap fun x => [hexDigit (x / 16), hexDigit (x % 16)])

/-- The state of the UTF-8 decoder between two bytes: the code point gathered
so far, how many continuation bytes are still needed (0: no sequence is open)
and the range the next continuation byte must lie in. -/
structure Utf8State where
  codePoint : Nat
  needed : Nat
  lower : Nat
  upper : Nat
deriving Repr, DecidableEq

/-- The decoder with no sequence open. -/
def utf8Idle : Utf8State := { codePoint := 0, needed := 0, lower := 0x80, upper := 0xBF }

/-- What a byte does when no sequence is open: an ASCII byte is its own code
point, a lead byte opens a sequence of one, two or three continuation bytes
(with the narrower range after 0xE0, 0xED, 0xF0 and 0xF4 that rules out overlong
forms, surrogates and code points above U+10FFFF), any other byte is replaced
by U+FFFD. -/
def utf8Lead (b : Nat) : Option Nat × Utf8State :=
  if b ≤ 0x7F then (some b, utf8Idle)
  else if 0xC2 ≤ b ∧ b ≤ 0xDF then
    (none, { codePoint := b - 0xC0, needed := 1, lower := 0x80, upper := 0xBF })
  else if 0xE0 ≤ b ∧ b ≤ 0xEF then
    (none, { codePoint := b - 0xE0, needed := 2,
             lower := if b = 0xE0 then 0xA0 else 0x80,
             upper := if b = 0xED then 0x9F else 0xBF })
  else if 0xF0 ≤ b ∧ b ≤ 0xF4 then
    (none, { codePoint := b - 0xF0, needed := 3,
             lower := if b = 0xF0 then 0x90 else 0x80,
             upper := if b = 0xF4 then 0x8F else 0xBF })
  else (some 0xFFFD, utf8Idle)

/-- The UTF-8 decoder over the bytes left, giving code points: a continuation
byte in range extends the open sequence; a byte out of range ends it with
U+FFFD and is then read again as a first byte; a sequence still open at the
end gives one U+FFFD. -/
def utf8Decode : Buffer → Utf8State → List Nat
  | [], s => if s.needed = 0 then [] else [0xFFFD]
  | b :: rest, s =>
    if s.needed = 0 then
      (utf8Lead b).1.toList ++ utf8Decode rest (utf8Lead b).2
    else if s.lower ≤ b ∧ b ≤ s.upper then
      if s.needed = 1 then
        (s.codePoint * 64 + (b - 0x80)) :: utf8Decode rest utf8Idle
      else
        utf8Decode rest
          { codePoint := s.codePoint * 64 + (b - 0x80), needed := s.needed - 1,
            lower := 0x80, upper := 0xBF }
    else
      0xFFFD :: ((utf8Lead b).1.toList ++ utf8Decode rest (utf8Lead b).2)

/-- Node's `buf.toString()`, the call `getLine` and `readEachLine` make: the
bytes decoded as UTF-8, every ill-formed part replaced by U+FFFD. -/
def utf8ToString (b : Buffer) : String :=
  String.mk ((utf8Decode b utf8Idle).map Char.ofNat)

/-! ## `getLine`: what the backward scan finds -/

section GetLine

variable {T : Type} (toStr : Buffer → T) (EOL : Buffer)

theorem subarray_zero_left (buffer : Buffer) (stop : Nat) :
    subarray buffer 0 stop = buffer.take stop := by
  simp [subarray]

theorem subarray_length_right (buffer : Buffer) (start : Nat) :
    subarray buffer start buffer.length = buffer.drop start := by
  simp [subarray]

/-- The scan walks over indices that hold no newline, down to (not including)
index 0. -/
theorem getLineLoop_skip (buffer : Buffer) (k d : Nat) (hk : 0 < k)
    (h : ∀ j, k ≤ j → j < k + d → buffer[j]? ≠ some 0x0a) :
    getLineLoop toStr EOL buffer (k + d) = getLineLoop toStr EOL buffer k := by
  induction d with
  | zero => rfl
  | succ d ih =>
    have hd : buffer[k + d]? ≠ some 0x0a := h (k + d) (by omega) (by omega)
    have h0 : k + d ≠ 0 := by omega
    rw [← Nat.add_assoc, getLineLoop, if_neg (by simp [hd, h0])]
    exact ih fun j h1 h2 => h j h1 (by omega)

/-- The scan stops at a newline at an index `i > 0`. -/
theorem getLineLoop_newline (buffer : Buffer) (i : Nat) (hi : 0 < i)
    (h : buffer[i]? = some 0x0a) :
    getLineLoop toStr EOL buffer (i + 1) =
      some { line := toStr (buffer.drop (i + 1)),
             newBuffer := buffer.take (if EOL.length > 1 then i - 1 else i) } := by
  have h0 : i ≠ 0 := by omega
  rw [getLineLoop, if_pos (Or.inl h)]
  simp [h0, subarray]

/-- The scan stops at index 0, whatever byte is there. -/
theorem getLineLoop_one (buffer : Buffer) :
    getLineLoop toStr EOL buffer 1 = some { line := toStr buffer, newBuffer := [] } := by
  rw [getLineLoop, if_pos (Or.inr rfl)]
  simp [subarray]

theorem getLine_nil : getLine toStr EOL [] = none := rfl

/-- The last newline of the buffer is at `i > 0`: the line is what follows it,
the remainder what precedes it (less one byte for a two-byte terminator). -/
theorem getLine_of_last_newline (buffer : Buffer) (i : Nat) (hi : 0 < i)
    (h : buffer[i]? = some 0x0a) (hlast : ∀ j, i < j → buffer[j]? ≠ some 0x0a) :
    getLine toStr EOL buffer =
      some { line := toStr (buffer.drop (i + 1)),
             newBuffer := buffer.take (if EOL.length > 1 then i - 1 else i) } := by
  have hlen : i < buffer.length := by
    by_contra hc
    rw [List.getElem?_eq_none (by omega)] at h
    exact absurd h (by simp)
  have hsplit : buffer.length = (i + 1) + (buffer.length - (i + 1)) := by omega
  rw [getLine, hsplit, getLineLoop_skip toStr EOL buffer (i + 1) _ (by omega)
    (fun j h1 _ => hlast j (by omega))]
  exact getLineLoop_newline toStr EOL buffer i hi h

/-- No newline at any index `≥ 1` of a non-empty buffer: the whole buffer is the
line and the remainder is empty. -/
theorem getLine_of_no_newline (buffer : Buffer) (hne : buffer ≠ [])
    (h : ∀ j, 1 ≤ j → buffer[j]? ≠ some 0x0a) :
    getLine toStr EOL buffer = some { line := toStr buffer, newBuffer := [] } := by
  have hlen : 0 < buffer.length := List.length_pos.mpr hne
  have hsplit : buffer.length = 1 + (buffer.length - 1) := by omega
  rw [getLine, hsplit, getLineLoop_skip toStr EOL buffer 1 _ (by omega)
    (fun j h1 _ => h j h1)]
  exact getLineLoop_one toStr EOL buffer

/-- The structural form of `getLine_of_last_newline`. -/
theorem getLine_append_newline (pre post : Buffer) (hpre : pre ≠ [])
    (hpost : 0x0a ∉ post) :
    getLine toStr EOL (pre ++ 0x0a :: post) =
      some { line := toStr post,
             newBuffer := if EOL.length > 1 then pre.dropLast else pre } := by
  have hlen : 0 < pre.length := List.length_pos.mpr hpre
  rw [getLine_of_last_newline toStr EOL (pre ++ 0x0a :: post) pre.length hlen
    (by rw [List.getElem?_append_right (Nat.le_refl _)]; simp)]
  · congr 2
    · simp
    · split
      · rw [List.take_append_of_le_length (by omega), List.dropLast_eq_take]
      · simp
  · intro j hj hc
    rw [List.getElem?_append_right (by omega)] at hc
    obtain ⟨m, hm⟩ : ∃ m, j - pre.length = m + 1 := ⟨j - pre.length - 1, by omega⟩
    rw [hm, List.getElem?_cons_succ] at hc
    exact hpost (List.getElem?_mem hc)

/-- The structural form of `getLine_of_no_newline`. -/
theorem getLine_cons_no_newline (b : Nat) (post : Buffer) (hpost : 0x0a ∉ post) :
    getLine toStr EOL (b :: post) = some { line := toStr (b :: post), newBuffer := [] } := by
  apply getLine_of_no_newline toStr EOL (b :: post) (by simp)
  intro j hj hc
  obtain ⟨m, hm⟩ : ∃ m, j = m + 1 := ⟨j - 1, by omega⟩
  rw [hm, List.getElem?_cons_succ] at hc
  exact hpost (List.getElem?_mem hc)

end GetLine

/-! ## The drain loop as a list of lines -/

section Drain

variable {ε σ T : Type} (processline : Callback ε σ T) (toStr : Buffer → T) (EOL : Buffer)

theorem getLineLoop_isSome (buffer : Buffer) (n : Nat) (hn : 0 < n) :
    (getLineLoop toStr EOL buffer n).isSome = true := by
  induction n with
  | zero => omega
  | succ i ih =>
    rw [getLineLoop]
    split
    · rfl
    · rename_i hc
      exact ih (by simp at hc; omega)

/-- `getLine` returns `null` exactly on the empty buffer. -/
theorem getLine_eq_none_iff (buffer : Buffer) :
    getLine toStr EOL buffer = none ↔ buffer = [] := by
  constructor
  · intro h
    by_contra hne
    have := getLineLoop_isSome toStr EOL buffer buffer.length (List.length_pos.mpr hne)
    rw [getLine] at h
    simp [h] at this
  · rintro rfl
    rfl

theorem drainLines_nil : drainLines toStr EOL [] = [] := by
  rw [drainLines]
  split
  · rfl
  · rename_i h
    simp [getLine_nil] at h

theorem drainLines_of_some (buffer : Buffer) (o : LineObj T)
    (h : getLine toStr EOL buffer = some o) :
    drainLines toStr EOL buffer = o.line :: drainLines toStr EOL o.newBuffer := by
  rw [drainLines]
  split
  · rename_i h1
    rw [h] at h1
    exact absurd h1 (by simp)
  · rename_i o1 h1
    rw [h] at h1
    injection h1 with h1
    subst h1
    rfl

theorem drain_nil (w : World σ T) :
    drain processline toStr EOL [] w = (.ok [], w) := by
  rw [drain]
  split
  · rfl
  · rename_i h
    simp [getLine_nil] at h

theorem drain_of_some (buffer : Buffer) (o : LineObj T) (w : World σ T)
    (h : getLine toStr EOL buffer = some o) :
    drain processline toStr EOL buffer w =
      match callProcessline processline o.line w with
      | (.error e, w1) => (.error e, w1)
      | (.ok _, w1) => drain processline toStr EOL o.newBuffer w1 := by
  rw [drain]
  split
  · rename_i h1
    rw [h] at h1
    exact absurd h1 (by simp)
  · rename_i o1 h1
    rw [h] at h1
    injection h1 with h1
    subst h1
    rfl

/-- The drain loop is the run of the calls `processline(line)` over the lines of
`drainLines`, and when no call throws it leaves the buffer empty. -/
theorem drain_eq_runScript (buffer : Buffer) (w : World σ T) :
    drain processline toStr EOL buffer w =
      withValue [] (runScript processline
        ((drainLines toStr EOL buffer).map Event.processline) w) := by
  generalize hn : buffer.length = n
  induction n using Nat.strong_induction_on generalizing buffer w with
  | _ n ih =>
    cases hg : getLine toStr EOL buffer with
    | none =>
      rw [(getLine_eq_none_iff toStr EOL buffer).mp hg, drain_nil, drainLines_nil]
      rfl
    | some o =>
      have hlt := getLine_newBuffer_length_lt toStr EOL buffer o hg
      rw [drain_of_some processline toStr EOL buffer o w hg,
        drainLines_of_some toStr EOL buffer o hg, List.map_cons, runScript]
      rcases hc : callProcessline processline o.line w with ⟨r | u, w1⟩
      · rfl
      · exact ih _ (by omega) o.newBuffer w1 rfl

end Drain

/-! ## The whole run as a script -/

section Script

variable {ε σ T : Type} (processline : Callback ε σ T) (toStr : Buffer → T) (EOL : Buffer)
  (fill : String → Nat → Nat)

theorem runScript_append (a b : List (Event T)) (w : World σ T) :
    runScript processline (a ++ b) w =
      match runScript processline a w with
      | (.error e, w1) => (.error e, w1)
      | (.ok _, w1) => runScript processline b w1 := by
  induction a generalizing w with
  | nil => rfl
  | cons x a ih =>
    cases x with
    | openSync => rw [List.cons_append, runScript, runScript, ih]
    | closeSync => rw [List.cons_append, runScript, runScript, ih]
    | readSync l p => rw [List.cons_append, runScript, runScript, ih]
    | processline line =>
      rw [List.cons_append, runScript, runScript]
      rcases callProcessline processline line w with ⟨r | u, w1⟩
      · rfl
      · exact ih w1

theorem length_subarray_of_le (file : Buffer) (position length : Nat)
    (h : position + length ≤ file.length) :
    (subarray file position (position + length)).length = length := by
  simp only [subarray, List.length_drop, List.length_take]
  omega

/-- A read that lies inside the file overwrites the whole fresh buffer: what the
buffer was filled with does not show. -/
theorem readSync_buf_alloc (encoding : String) (file : Buffer) (position length : Nat)
    (h : position + length ≤ file.length) :
    readSync file (buf_alloc fill encoding length) 0 length position =
      subarray file position (position + length) := by
  have hl := length_subarray_of_le file position length h
  simp only [readSync, List.take_zero, List.nil_append, Nat.zero_add, hl]
  rw [List.drop_of_length_le (by simp [buf_alloc]), List.append_nil]

theorem buf_alloc_zero (encoding : String) : buf_alloc fill encoding 0 = [] := rfl

/-- One fetch into an empty `curBuffer` runs the script of its chunk and leaves
`curBuffer` empty. -/
theorem fetchAndDrain_eq (encoding : String) (file : Buffer) (position length : Nat)
    (h : position + length ≤ file.length) (w : World σ T) :
    fetchAndDrain processline toStr EOL fill encoding file length position [] w =
      withValue [] (runScript processline (chunkScript toStr EOL file (position, length)) w) := by
  simp only [fetchAndDrain, readSync_buf_alloc fill encoding file position length h,
    List.nil_append, drain_eq_runScript, chunkScript, chunkAt, runScript]

/-- The `for` loop from `i` on, started with an empty `curBuffer`, runs the
scripts of the chunks `i, …, numOfLoops - 1` in this order. -/
theorem forLoop_eq (encoding : String) (file : Buffer) (bufferSize numOfLoops : Nat)
    (hfit : bufferSize * numOfLoops ≤ file.length) (k i : Nat) (hk : i + k = numOfLoops)
    (w : World σ T) :
    forLoop processline toStr EOL fill encoding file bufferSize numOfLoops i [] w =
      withValue (numOfLoops, [])
        (runScript processline
          (((List.range' i k).map fun j =>
            chunkScript toStr EOL file (bufferSize * j, bufferSize)).flatten) w) := by
  induction k generalizing i w with
  | zero =>
    rw [forLoop, if_neg (by omega)]
    have : i = numOfLoops := by omega
    subst this
    rfl
  | succ k ih =>
    have hin : bufferSize * i + bufferSize ≤ file.length := by
      have : bufferSize * (i + 1) ≤ bufferSize * numOfLoops :=
        Nat.mul_le_mul_left _ (by omega)
      rw [Nat.mul_succ] at this
      omega
    rw [forLoop, if_pos (by omega),
      fetchAndDrain_eq processline toStr EOL fill encoding file _ _ hin,
      List.range'_succ, List.map_cons, List.flatten_cons, runScript_append]
    rcases runScript processline (chunkScript toStr EOL file (bufferSize * i, bufferSize)) w
      with ⟨r | u, w1⟩
    · rfl
    · exact ih (i + 1) (by omega) w1

theorem runScript_singleton_closeSync (w : World σ T) :
    runScript processline [Event.closeSync] w =
      (.ok (), { cb := w.cb, log := w.log ++ [Event.closeSync] }) := rfl

/-- The run of `readEachLineWith` on an existing file is the run of its script:
the open, then for every read request of the chunk plan the read followed by
the calls for the lines drained from that chunk alone, then the close; a call
that throws ends the run on the spot. -/
theorem readEachLineWith_eq_runScript (chunkSize : Nat) (file : Buffer)
    (encoding : Option String) (w : World σ T) :
    readEachLineWith chunkSize EOL toStr fill (some file) encoding processline w =
      runScript processline (script chunkSize toStr EOL file) w := by
  simp only [readEachLineWith, script, chunkPlan, buf_alloc_zero]
  generalize hb : (if file.length < chunkSize then file.length else chunkSize) = b
  rw [List.append_assoc, List.singleton_append, runScript]
  generalize ({ cb := w.cb, log := w.log ++ [Event.openSync] } : World σ T) = w1
  by_cases hb0 : b = 0
  · subst hb0
    simp only [floorDiv, jsMod, if_true, Option.getD_none, List.map_nil, List.flatten_nil,
      List.nil_append]
    rw [forLoop_eq processline toStr EOL fill _ file 0 0 (by simp) 0 0 rfl w1]
    rfl
  · simp only [floorDiv, jsMod, if_neg hb0, Option.getD_some, Option.any_some,
      decide_eq_true_eq]
    rw [forLoop_eq processline toStr EOL fill _ file b (file.length / b)
      (Nat.mul_div_le _ _) (file.length / b) 0 (by omega) w1,
      List.map_append, List.flatten_append, List.append_assoc, runScript_append,
      List.map_map, List.range_eq_range']
    have hfun : (chunkScript toStr EOL file ∘ fun i => (b * i, b)) =
        fun j => chunkScript toStr EOL file (b * j, b) := rfl
    rw [hfun]
    rcases runScript processline
      ((List.range' 0 (file.length / b)).map fun j =>
        chunkScript toStr EOL file (b * j, b)).flatten w1 with ⟨r | u, w2⟩
    · rfl
    · by_cases hr : file.length % b > 0
      · simp only [withValue, if_pos hr, List.map_cons, List.map_nil, List.flatten_cons,
          List.flatten_nil, List.append_nil]
        rw [fetchAndDrain_eq processline toStr EOL fill _ file _ _
          (by rw [Nat.div_add_mod]) w2, runScript_append]
        rcases runScript processline
          (chunkScript toStr EOL file (b * (file.length / b), file.length % b)) w2
          with ⟨r3 | u3, w3⟩
        · rfl
        · rfl
      · simp only [withValue, if_neg hr, List.map_nil, List.flatten_nil, List.nil_append]
        rfl

end Script

/-! ## Runs in which no call throws -/

section Quiet

variable {T : Type} (toStr : Buffer → T) (EOL : Buffer) (fill : String → Nat → Nat)

theorem runScript_quiet (events : List (Event T)) (w : World Unit T) :
    runScript quiet events w = (.ok (), { cb := (), log := w.log ++ events }) := by
  induction events generalizing w with
  | nil => simp [runScript]
  | cons x rest ih =>
    cases x <;> simp [runScript, callProcessline, quiet, ih]

/-- With a callback that never throws the run returns normally and its log is
the script. -/
theorem runWith_eq (chunkSize : Nat) (encoding : Option String) (file : Buffer) :
    runWith chunkSize EOL toStr fill encoding file =
      (.ok (), { cb := (), log := script chunkSize toStr EOL file }) := by
  rw [runWith, readEachLineWith_eq_runScript, runScript_quiet]
  rfl

theorem calls_append (a b : List (Event T)) : calls (a ++ b) = calls a ++ calls b := by
  simp [calls]

theorem calls_map_processline (lines : List T) : calls (lines.map Event.processline) = lines := by
  induction lines with
  | nil => rfl
  | cons l rest ih =>
    simp only [calls] at ih
    simp [calls, ih]

theorem calls_chunkScript (file : Buffer) (request : Nat × Nat) :
    calls (chunkScript toStr EOL file request) =
      drainLines toStr EOL (chunkAt file request) := by
  have h := calls_map_processline (drainLines toStr EOL (chunkAt file request))
  simp only [calls] at h
  simp [chunkScript, calls, h]

theorem calls_flatten (l : List (List (Event T))) :
    calls l.flatten = (l.map calls).flatten := by
  induction l with
  | nil => rfl
  | cons x rest ih => simp [calls_append, ih]

/-- The lines emitted are, chunk after chunk in the order the chunks are read,
the lines drained from that chunk alone. -/
theorem emittedWith_eq (chunkSize : Nat) (encoding : Option String) (file : Buffer) :
    emittedWith chunkSize EOL toStr fill encoding file =
      ((chunkPlan chunkSize file.length).map fun request =>
        drainLines toStr EOL (chunkAt file request)).flatten := by
  rw [emittedWith, runWith_eq]
  simp only [script, calls_append, calls_flatten, List.map_map]
  have h1 : calls ([Event.openSync] : List (Event T)) = [] := rfl
  have h2 : calls ([Event.closeSync] : List (Event T)) = [] := rfl
  have h3 : (calls ∘ chunkScript toStr EOL file) =
      fun request => drainLines toStr EOL (chunkAt file request) :=
    funext fun request => calls_chunkScript toStr EOL file request
  rw [h1, h2, h3, List.nil_append, List.append_nil]

/-- A non-empty file of at most `chunkSize` bytes is read in one request. -/
theorem chunkPlan_single (chunkSize fsize : Nat) (h0 : 0 < fsize) (hle : fsize ≤ chunkSize) :
    chunkPlan chunkSize fsize = [(0, fsize)] := by
  have hb : (if fsize < chunkSize then fsize else chunkSize) = fsize := by
    split <;> omega
  simp only [chunkPlan, hb, if_neg (by omega : ¬ fsize = 0), Nat.div_self h0, Nat.mod_self]
  simp [List.range_succ]

theorem chunkAt_whole (file : Buffer) : chunkAt file (0, file.length) = file := by
  simp [chunkAt, subarray]

/-- A non-empty file of at most `chunkSize` bytes: the emitted lines are the
lines drained from the whole content. -/
theorem emittedWith_single (chunkSize : Nat) (encoding : Option String) (file : Buffer)
    (hne : file ≠ []) (hle : file.length ≤ chunkSize) :
    emittedWith chunkSize EOL toStr fill encoding file = drainLines toStr EOL file := by
  rw [emittedWith_eq, chunkPlan_single chunkSize file.length (List.length_pos.mpr hne) hle]
  simp [chunkAt_whole]

end Quiet

/-! ## The lines drained from one buffer -/

section Lines

variable {T : Type} (toStr : Buffer → T)

theorem splitOnP_append_cons {α : Type} (p : α → Bool) (as bs : List α) (sep : α)
    (hsep : p sep = true) :
    (as ++ sep :: bs).splitOnP p = as.splitOnP p ++ bs.splitOnP p := by
  induction as with
  | nil => simp [List.splitOnP_cons, hsep]
  | cons a as ih =>
    rw [List.cons_append, List.splitOnP_cons, List.splitOnP_cons, ih]
    split
    · rfl
    · cases h : List.splitOnP p as with
      | nil => exact absurd h (List.splitOnP_ne_nil p as)
      | cons x rest => rfl

/-- Splitting on the newline, seen from the last newline. -/
theorem splitOn_append_newline (pre post : Buffer) (hpost : 0x0a ∉ post) :
    (pre ++ 0x0a :: post).splitOn 0x0a = pre.splitOn 0x0a ++ [post] := by
  have h1 : post.splitOnP (· == 0x0a) = [post] :=
    List.splitOnP_eq_single _ _ fun x hx => by
      simp only [beq_iff_eq]
      rintro rfl
      exact hpost hx
  simp only [List.splitOn]
  rw [splitOnP_append_cons _ pre post 0x0a (by simp), h1]

theorem splitOn_of_not_mem (post : Buffer) (hpost : 0x0a ∉ post) :
    post.splitOn 0x0a = [post] :=
  List.splitOnP_eq_single _ _ fun x hx => by
    simp only [beq_iff_eq]
    rintro rfl
    exact hpost hx

theorem splitOn_ne_nil (l : Buffer) : l.splitOn 0x0a ≠ [] :=
  List.splitOnP_ne_nil _ l

theorem splitOn_cons_of_ne (b : Nat) (tail : Buffer) (hb : b ≠ 0x0a) :
    (b :: tail).splitOn 0x0a = (tail.splitOn 0x0a).modifyHead (List.cons b) := by
  simp only [List.splitOn]
  rw [List.splitOnP_cons, if_neg (by simpa using hb)]

/-- A buffer that holds a newline splits at its last one. -/
theorem exists_last_newline (l : Buffer) (h : 0x0a ∈ l) :
    ∃ pre post, l = pre ++ 0x0a :: post ∧ 0x0a ∉ post := by
  induction l with
  | nil => simp at h
  | cons a l ih =>
    by_cases hl : 0x0a ∈ l
    · obtain ⟨pre, post, hpp, hn⟩ := ih hl
      exact ⟨a :: pre, post, by rw [hpp, List.cons_append], hn⟩
    · have ha : a = 0x0a := by
        rcases List.mem_cons.mp h with h1 | h1
        · exact h1.symm
        · exact absurd h1 hl
      exact ⟨[], l, by rw [ha, List.nil_append], hl⟩

/-- With the one-byte terminator, the lines drained from a non-empty buffer are
the pieces between the newlines of its tail, the first byte put back in front
of the first piece, last piece first. The first byte of the buffer is never
taken as a separator. -/
theorem drainLines_LF_cons (b : Nat) (tail : Buffer) :
    drainLines toStr LF (b :: tail) =
      (((tail.splitOn 0x0a).modifyHead (List.cons b)).reverse).map toStr := by
  generalize hn : tail.length = n
  induction n using Nat.strong_induction_on generalizing tail with
  | _ n ih =>
    by_cases h : 0x0a ∈ tail
    · obtain ⟨pre, post, hpp, hpost⟩ := exists_last_newline tail h
      subst hpp
      have hg := getLine_append_newline toStr LF (b :: pre) post (by simp) hpost
      rw [List.cons_append] at hg
      have hlf : ¬ (LF.length > 1) := by decide
      rw [if_neg hlf] at hg
      rw [drainLines_of_some toStr LF _ _ hg, splitOn_append_newline pre post hpost]
      have hlen : pre.length < n := by
        rw [← hn, List.length_append, List.length_cons]
        omega
      simp only
      rw [ih pre.length hlen pre rfl]
      cases hs : List.splitOn 0x0a pre with
      | nil => exact absurd hs (splitOn_ne_nil pre)
      | cons x rest => simp
    · have hg := getLine_cons_no_newline toStr LF b tail h
      rw [drainLines_of_some toStr LF _ _ hg, splitOn_of_not_mem tail h]
      simp [drainLines_nil]

/-- With the one-byte terminator, a non-empty buffer that does not start with a
newline drains to its lines split on the newline, last line first. -/
theorem drainLines_LF (buffer : Buffer) (hne : buffer ≠ [])
    (hfirst : buffer.head? ≠ some 0x0a) :
    drainLines toStr LF buffer = ((buffer.splitOn 0x0a).reverse).map toStr := by
  cases buffer with
  | nil => exact absurd rfl hne
  | cons b tail =>
    rw [drainLines_LF_cons, splitOn_cons_of_ne b tail (by simpa using hfirst)]

/-- A non-empty buffer without a newline is one line, whatever the terminator. -/
theorem drainLines_no_newline (EOL : Buffer) (buffer : Buffer) (hne : buffer ≠ [])
    (h : 0x0a ∉ buffer) : drainLines toStr EOL buffer = [toStr buffer] := by
  cases buffer with
  | nil => exact absurd rfl hne
  | cons b tail =>
    have hg := getLine_cons_no_newline toStr EOL b tail
      (fun hc => h (List.mem_cons_of_mem _ hc))
    rw [drainLines_of_some toStr EOL _ _ hg]
    simp [drainLines_nil]

theorem intercalate_cons_cons (sep a b : Buffer) (rest : List Buffer) :
    sep.intercalate (a :: b :: rest) = a ++ sep ++ sep.intercalate (b :: rest) := by
  simp [List.intercalate]

theorem intercalate_singleton (sep a : Buffer) : sep.intercalate [a] = a := by
  simp [List.intercalate]

theorem intercalate_concat (sep a : Buffer) (rest : List Buffer) (l : Buffer) :
    sep.intercalate (a :: rest ++ [l]) = sep.intercalate (a :: rest) ++ sep ++ l := by
  induction rest generalizing a with
  | nil => simp [List.intercalate]
  | cons b rest ih =>
    rw [List.cons_append, List.cons_append, intercalate_cons_cons, ← List.cons_append, ih,
      intercalate_cons_cons]
    simp

theorem intercalate_cons_ne_nil (sep a : Buffer) (rest : List Buffer) (ha : a ≠ []) :
    sep.intercalate (a :: rest) ≠ [] := by
  cases rest with
  | nil => rwa [intercalate_singleton]
  | cons b rest =>
    rw [intercalate_cons_cons]
    simp [ha]

/-- Lines without a newline, the first of them non-empty, joined by the
terminator (`"\n"` or `"\r\n"`): the drain loop takes the lines out one by
one, last line first, each without its terminator. -/
theorem drainLines_intercalate (EOL : Buffer) (hEOL : EOL = LF ∨ EOL = CRLF)
    (first : Buffer) (rest : List Buffer) (hfirst : first ≠ [])
    (hlines : ∀ l ∈ first :: rest, 0x0a ∉ l) :
    drainLines toStr EOL (EOL.intercalate (first :: rest)) =
      ((first :: rest).reverse).map toStr := by
  induction rest using List.reverseRecOn with
  | nil =>
    rw [intercalate_singleton]
    simpa using drainLines_no_newline toStr EOL first hfirst (hlines first (by simp))
  | append_singleton rest l ih =>
    have hl : 0x0a ∉ l := hlines l (by simp)
    have hX := intercalate_cons_ne_nil EOL first rest hfirst
    have ih' := ih fun x hx => hlines x (by
      rcases List.mem_cons.mp hx with h1 | h1
      · simp [h1]
      · simp [h1])
    rw [← List.cons_append, intercalate_concat]
    have hg : getLine toStr EOL (EOL.intercalate (first :: rest) ++ EOL ++ l) =
        some { line := toStr l, newBuffer := EOL.intercalate (first :: rest) } := by
      rcases hEOL with h | h
      · subst h
        have := getLine_append_newline toStr LF (LF.intercalate (first :: rest)) l hX hl
        rw [if_neg (by decide)] at this
        simpa [LF] using this
      · subst h
        have := getLine_append_newline toStr CRLF
          (CRLF.intercalate (first :: rest) ++ [0x0d]) l (by simp) hl
        rw [if_pos (by decide)] at this
        simpa [CRLF] using this
    rw [drainLines_of_some toStr EOL _ _ hg]
    simp only
    rw [ih']
    simp

end Lines

/-! ## Files of several chunks -/

section Chunks

variable {T : Type} (toStr : Buffer → T) (EOL : Buffer) (fill : String → Nat → Nat)

/-- With the one-byte terminator the drain loop splits at the last newline. -/
theorem drainLines_LF_append_newline (pre post : Buffer) (hpre : pre ≠ [])
    (hpost : 0x0a ∉ post) :
    drainLines toStr LF (pre ++ 0x0a :: post) = toStr post :: drainLines toStr LF pre := by
  have hg := getLine_append_newline toStr LF pre post hpre hpost
  rw [if_neg (by decide)] at hg
  rw [drainLines_of_some toStr LF _ _ hg]

theorem chunkAt_append_mid (pre mid post : Buffer) :
    chunkAt (pre ++ mid ++ post) (pre.length, mid.length) = mid := by
  simp only [chunkAt, subarray]
  rw [List.take_left' (by rw [List.length_append]), List.drop_left' rfl]

/-- Three full chunks are read at the offsets `0`, `n`, `2n`, in this order. -/
theorem chunkPlan_three (n : Nat) (hn : 0 < n) :
    chunkPlan n (n + n + n) = [(0, n), (n, n), (n + n, n)] := by
  have hb : (if n + n + n < n then n + n + n else n) = n := if_neg (by omega)
  have hdiv : (n + n + n) / n = 3 := by
    rw [show n + n + n = 3 * n by omega, Nat.mul_div_cancel _ hn]
  have hmod : (n + n + n) % n = 0 := by
    rw [show n + n + n = 3 * n by omega, Nat.mul_mod_left]
  simp only [chunkPlan, hb, if_neg (by omega : ¬ n = 0), hdiv, hmod]
  simp [List.range_succ]
  omega

/-- A file of exactly three chunks: every chunk is drained on its own, the
chunks in file order. -/
theorem emittedWith_three_chunks (n : Nat) (hn : 0 < n) (encoding : Option String)
    (A B C : Buffer) (hA : A.length = n) (hB : B.length = n) (hC : C.length = n) :
    emittedWith n EOL toStr fill encoding (A ++ B ++ C) =
      drainLines toStr EOL A ++ drainLines toStr EOL B ++ drainLines toStr EOL C := by
  have hlen : (A ++ B ++ C).length = n + n + n := by
    rw [List.length_append, List.length_append, hA, hB, hC]
  have h0 := chunkAt_append_mid [] A (B ++ C)
  have h1 := chunkAt_append_mid A B C
  have h2 := chunkAt_append_mid (A ++ B) C []
  rw [List.nil_append, List.length_nil, hA, ← List.append_assoc] at h0
  rw [hA, hB] at h1
  rw [List.append_nil, List.length_append, hA, hB, hC] at h2
  rw [emittedWith_eq, hlen, chunkPlan_three n hn]
  simp only [List.map_cons, List.map_nil, List.flatten_cons, List.flatten_nil, h0, h1, h2,
    List.append_nil]
  rw [List.append_assoc]

end Chunks

/-! ## The file handle -/

section Handle

variable {ε σ T : Type} (processline : Callback ε σ T)

theorem closes_append (a b : List (Event T)) : closes (a ++ b) = closes a + closes b := by
  simp [closes]

theorem opens_append (a b : List (Event T)) : opens (a ++ b) = opens a + opens b := by
  simp [opens]

/-- Running events none of which is a close leaves the number of closes as it
was, also when a call throws. -/
theorem closes_runScript (events : List (Event T))
    (h : ∀ e ∈ events, e ≠ Event.closeSync) (w : World σ T) :
    closes (runScript processline events w).2.log = closes w.log := by
  induction events generalizing w with
  | nil => rfl
  | cons x rest ih =>
    have hrest : ∀ e ∈ rest, e ≠ Event.closeSync := fun e he => h e (List.mem_cons_of_mem _ he)
    cases x with
    | closeSync => exact absurd rfl (h _ (List.mem_cons_self _ _))
    | openSync =>
      rw [runScript, ih hrest, closes_append]
      rfl
    | readSync l p =>
      rw [runScript, ih hrest, closes_append]
      rfl
    | processline line =>
      rw [runScript]
      have hc : closes (callProcessline processline line w).2.log = closes w.log := by
        rw [callProcessline]
        split <;> (simp only [closes_append]; rfl)
      rcases hr : callProcessline processline line w with ⟨r | u, w1⟩
      · rw [hr] at hc
        exact hc
      · rw [hr] at hc
        simp only
        rw [ih hrest, hc]

/-- Running events none of which is an open leaves the number of opens as it
was, also when a call throws. -/
theorem opens_runScript (events : List (Event T))
    (h : ∀ e ∈ events, e ≠ Event.openSync) (w : World σ T) :
    opens (runScript processline events w).2.log = opens w.log := by
  induction events generalizing w with
  | nil => rfl
  | cons x rest ih =>
    have hrest : ∀ e ∈ rest, e ≠ Event.openSync := fun e he => h e (List.mem_cons_of_mem _ he)
    cases x with
    | openSync => exact absurd rfl (h _ (List.mem_cons_self _ _))
    | closeSync =>
      rw [runScript, ih hrest, opens_append]
      rfl
    | readSync l p =>
      rw [runScript, ih hrest, opens_append]
      rfl
    | processline line =>
      rw [runScript]
      have hc : opens (callProcessline processline line w).2.log = opens w.log := by
        rw [callProcessline]
        split <;> (simp only [opens_append]; rfl)
      rcases hr : callProcessline processline line w with ⟨r | u, w1⟩
      · rw [hr] at hc
        exact hc
      · rw [hr] at hc
        simp only
        rw [ih hrest, hc]

/-- A run that ends in an error ends on the call of `processline` that threw
it: the error is the callback's and that call is the last event of the log. -/
theorem runScript_error (events : List (Event T)) (w : World σ T) (e : Error ε)
    (h : (runScript processline events w).1 = .error e) :
    ∃ e1 line, e = Error.thrown e1 ∧
      (runScript processline events w).2.log.getLast? = some (Event.processline line) := by
  induction events generalizing w with
  | nil => simp [runScript] at h
  | cons x rest ih =>
    cases x with
    | openSync => exact ih _ h
    | closeSync => exact ih _ h
    | readSync l p => exact ih _ h
    | processline line =>
      rw [runScript] at h ⊢
      cases hp : (processline w.cb line).2 with
      | some e1 =>
        have hc : callProcessline processline line w =
            (.error (.thrown e1),
              { cb := (processline w.cb line).1, log := w.log ++ [Event.processline line] }) := by
          simp only [callProcessline, hp]
        rw [hc] at h ⊢
        simp only at h ⊢
        injection h with h
        exact ⟨e1, line, h.symm, by simp⟩
      | none =>
        have hc : callProcessline processline line w =
            (.ok (),
              { cb := (processline w.cb line).1, log := w.log ++ [Event.processline line] }) := by
          simp only [callProcessline, hp]
        rw [hc] at h ⊢
        exact ih _ h

/-- Between the open and the close a run only reads and calls `processline`. -/
theorem mem_chunkScripts (toStr : Buffer → T) (EOL file : Buffer) (plan : List (Nat × Nat))
    (e : Event T) (he : e ∈ (plan.map (chunkScript toStr EOL file)).flatten) :
    e ≠ Event.closeSync ∧ e ≠ Event.openSync := by
  obtain ⟨l, hl, hel⟩ := List.mem_flatten.mp he
  obtain ⟨request, _, rfl⟩ := List.mem_map.mp hl
  rcases List.mem_cons.mp hel with h1 | h1
  · subst h1
    exact ⟨by simp, by simp⟩
  · obtain ⟨line, _, rfl⟩ := List.mem_map.mp h1
    exact ⟨by simp, by simp⟩

/-- The handle over a whole run: it is opened once; it is closed once, as the
last thing, when the run returns normally; and when the run ends in an error,
the error is one `processline` threw, the throwing call is the last event, and
the handle has not been closed. -/
theorem readEachLineWith_handle (chunkSize : Nat) (EOL : Buffer) (toStr : Buffer → T)
    (fill : String → Nat → Nat) (file : Buffer) (encoding : Option String) (w : World σ T) :
    opens (readEachLineWith chunkSize EOL toStr fill (some file) encoding processline w).2.log =
      opens w.log + 1 ∧
    ((readEachLineWith chunkSize EOL toStr fill (some file) encoding processline w).1 = .ok () →
      closes (readEachLineWith chunkSize EOL toStr fill (some file) encoding processline w).2.log =
        closes w.log + 1 ∧
      (readEachLineWith chunkSize EOL toStr fill (some file) encoding processline w).2.log.getLast? =
        some Event.closeSync) ∧
    (∀ e,
      (readEachLineWith chunkSize EOL toStr fill (some file) encoding processline w).1 =
        .error e →
      (∃ e1, e = Error.thrown e1) ∧
      closes (readEachLineWith chunkSize EOL toStr fill (some file) encoding processline w).2.log =
        closes w.log ∧
      ∃ line,
        (readEachLineWith chunkSize EOL toStr fill (some file) encoding processline w).2.log.getLast? =
          some (Event.processline line)) := by
  rw [readEachLineWith_eq_runScript, script, runScript_append]
  generalize hmid : ((chunkPlan chunkSize file.length).map (chunkScript toStr EOL file)).flatten
    = mid
  have hmem : ∀ e ∈ mid, e ≠ Event.closeSync ∧ e ≠ Event.openSync := fun e he =>
    mem_chunkScripts toStr EOL file _ e (hmid ▸ he)
  have hcl : closes (runScript processline ([Event.openSync] ++ mid) w).2.log = closes w.log :=
    closes_runScript processline _ (fun e he => by
      rcases List.mem_append.mp he with h1 | h1
      · simp at h1
        simp [h1]
      · exact (hmem e h1).1) w
  have hop : opens (runScript processline ([Event.openSync] ++ mid) w).2.log =
      opens w.log + 1 := by
    rw [List.singleton_append, runScript,
      opens_runScript processline mid (fun e he => (hmem e he).2), opens_append]
    rfl
  have herr := runScript_error processline ([Event.openSync] ++ mid) w
  rcases hr : runScript processline ([Event.openSync] ++ mid) w with ⟨e0 | u, w1⟩
  · rw [hr] at hcl hop herr
    refine ⟨hop, fun h => ?_, fun e he => ?_⟩
    · simp at h
    · simp only at he
      injection he with he
      subst he
      obtain ⟨e1, line, h1, h2⟩ := herr e0 rfl
      exact ⟨⟨e1, h1⟩, hcl, ⟨line, h2⟩⟩
  · rw [hr] at hcl hop
    simp only [runScript_singleton_closeSync]
    refine ⟨?_, fun _ => ⟨?_, by simp⟩, fun e he => ?_⟩
    · rw [opens_append, hop]
      rfl
    · rw [closes_append, hcl]
      rfl
    · simp at he

/-- A run that returns normally has logged all its events. -/
theorem runScript_ok_log (events : List (Event T)) (w : World σ T)
    (h : (runScript processline events w).1 = .ok ()) :
    (runScript processline events w).2.log = w.log ++ events := by
  induction events generalizing w with
  | nil => simp [runScript]
  | cons x rest ih =>
    cases x with
    | openSync =>
      rw [runScript] at h ⊢
      rw [ih _ h, List.append_assoc, List.singleton_append]
    | closeSync =>
      rw [runScript] at h ⊢
      rw [ih _ h, List.append_assoc, List.singleton_append]
    | readSync l p =>
      rw [runScript] at h ⊢
      rw [ih _ h, List.append_assoc, List.singleton_append]
    | processline line =>
      rw [runScript] at h ⊢
      cases hp : (processline w.cb line).2 with
      | some e1 =>
        have hc : callProcessline processline line w =
            (.error (.thrown e1),
              { cb := (processline w.cb line).1, log := w.log ++ [Event.processline line] }) := by
          simp only [callProcessline, hp]
        rw [hc] at h
        simp at h
      | none =>
        have hc : callProcessline processline line w =
            (.ok (),
              { cb := (processline w.cb line).1, log := w.log ++ [Event.processline line] }) := by
          simp only [callProcessline, hp]
        rw [hc] at h ⊢
        simp only at h ⊢
        rw [ih _ h, List.append_assoc, List.singleton_append]

/-- Whatever the callback and its state, a run that returns normally has passed
to `processline` exactly the lines of `emittedWith`, in that order. -/
theorem calls_of_normal_run (chunkSize : Nat) (EOL : Buffer) (toStr : Buffer → T)
    (fill : String → Nat → Nat) (file : Buffer) (encoding : Option String) (w : World σ T)
    (h : (readEachLineWith chunkSize EOL toStr fill (some file) encoding processline w).1 =
      .ok ()) :
    calls (readEachLineWith chunkSize EOL toStr fill (some file) encoding processline w).2.log =
      calls w.log ++ emittedWith chunkSize EOL toStr fill encoding file := by
  rw [readEachLineWith_eq_runScript] at h ⊢
  rw [runScript_ok_log processline _ w h, calls_append, emittedWith, runWith_eq]

end Handle

/-! ## The claims -/

/-- C1: with the one-byte terminator, a non-empty file of at most 65536 bytes
whose first and last bytes are not 0x0A makes `readEachLine` call `processline`
exactly `N` times, `N` the number of pieces of the content split on 0x0A, and
the call at index `k < N` receives the `(N-k)`-th piece counted from 1, that is
the piece at index `N - 1 - k`: the emitted lines are the lines of the file in
reverse order. -/
theorem readEachLine_single_chunk_reverse_order {T : Type} (toStr : Buffer → T)
    (fill : String → Nat → Nat) (encoding : Option String) (file : Buffer)
    (hne : file ≠ []) (hsize : file.length ≤ 65536)
    (hfirst : file.head? ≠ some 0x0a) (_hlast : file.getLast? ≠ some 0x0a) :
    emitted LF toStr fill encoding file = ((file.splitOn 0x0a).reverse).map toStr ∧
    (emitted LF toStr fill encoding file).length = (file.splitOn 0x0a).length ∧
    ∀ k, k < (file.splitOn 0x0a).length →
      (emitted LF toStr fill encoding file)[k]? =
        ((file.splitOn 0x0a)[(file.splitOn 0x0a).length - 1 - k]?).map toStr := by
  have h : emitted LF toStr fill encoding file = ((file.splitOn 0x0a).reverse).map toStr := by
    rw [emitted, emittedWith_single toStr LF fill chunkSize encoding file hne hsize,
      drainLines_LF toStr file hne hfirst]
  refine ⟨h, by simp [h], fun k hk => ?_⟩
  rw [h, List.getElem?_map, List.getElem?_reverse hk]

/-- C1 at the inputs the specification names: `"a\nb"` emits `"b"` then `"a"`,
and `"onlyline"` emits `"onlyline"` once. -/
theorem readEachLine_single_chunk_reverse_order_witness :
    (([97, 10, 98] : Buffer) ≠ [] ∧ ([97, 10, 98] : Buffer).length ≤ 65536 ∧
      ([97, 10, 98] : Buffer).head? ≠ some 0x0a ∧
      ([97, 10, 98] : Buffer).getLast? ≠ some 0x0a) ∧
    emitted LF id (fun _ _ => 0) none [97, 10, 98] = [[98], [97]] ∧
    emitted LF id (fun _ _ => 0) none [111, 110, 108, 121, 108, 105, 110, 101] =
      [[111, 110, 108, 121, 108, 105, 110, 101]] :=
  ⟨by decide,
   (readEachLine_single_chunk_reverse_order id (fun _ _ => 0) none [97, 10, 98]
      (by decide) (by decide) (by decide) (by decide)).1.trans (by decide),
   (readEachLine_single_chunk_reverse_order id (fun _ _ => 0) none
      [111, 110, 108, 121, 108, 105, 110, 101]
      (by decide) (by decide) (by decide) (by decide)).1.trans (by decide)⟩

theorem not_mem_replicate_of_ne (n a b : Nat) (h : a ≠ b) : a ∉ List.replicate n b :=
  fun hc => h (List.eq_of_mem_replicate hc)

theorem replicate_ne_nil_of_pos (n a : Nat) (h : 0 < n) : List.replicate n a ≠ [] :=
  List.ne_nil_of_length_pos (by rw [List.length_replicate]; exact h)

theorem threeChunkFile_chunks :
    threeChunkFile =
      List.replicate 65536 97 ++
        (List.replicate 10 97 ++ 0x0a :: List.replicate 65525 98) ++
        List.replicate 65536 98 := by
  have h1 : List.replicate 65546 97 = List.replicate 65536 97 ++ List.replicate 10 97 :=
    List.replicate_add 65536 10 97
  have h2 : List.replicate 131061 98 = List.replicate 65525 98 ++ List.replicate 65536 98 :=
    List.replicate_add 65525 65536 98
  rw [threeChunkFile, h1, h2]
  simp only [List.append_assoc, List.cons_append]

/-- C2, the code at a file of three chunks whose two lines cross the chunk
boundaries: the file has the two lines `a…a` (65546 bytes) and `b…b` (131061
bytes), and `readEachLine` calls `processline` four times, with the first
65536 bytes of the first line, then the first 65525 bytes of the last line,
then the last 10 bytes of the first line, then the last 65536 bytes of the last
line. Both lines are cut at the chunk boundaries and the first call is a piece
of the first line, not the last line. -/
theorem readEachLine_three_chunks_cuts_lines :
    threeChunkFile.length = 3 * 65536 ∧
    threeChunkFile.splitOn 0x0a = [List.replicate 65546 97, List.replicate 131061 98] ∧
    emitted LF id (fun _ _ => 0) none threeChunkFile =
      [List.replicate 65536 97, List.replicate 65525 98, List.replicate 10 97,
       List.replicate 65536 98] := by
  refine ⟨?_, ?_, ?_⟩
  · rw [threeChunkFile, List.length_append, List.length_cons, List.length_replicate,
      List.length_replicate]
  · rw [threeChunkFile, splitOn_append_newline _ _ (not_mem_replicate_of_ne _ _ _ (by decide)),
      splitOn_of_not_mem _ (not_mem_replicate_of_ne _ _ _ (by decide))]
    rfl
  · have hB : (List.replicate 10 97 ++ 0x0a :: List.replicate 65525 98).length = chunkSize := by
      rw [List.length_append, List.length_cons, List.length_replicate, List.length_replicate]
      rfl
    have hA : (List.replicate 65536 97).length = chunkSize := List.length_replicate _ _
    have hC : (List.replicate 65536 98).length = chunkSize := List.length_replicate _ _
    rw [threeChunkFile_chunks, emitted,
      emittedWith_three_chunks id LF _ chunkSize (by decide) none _ _ _ hA hB hC,
      drainLines_no_newline id LF _ (replicate_ne_nil_of_pos _ _ (by decide))
        (not_mem_replicate_of_ne _ _ _ (by decide)),
      drainLines_LF_append_newline id _ _ (replicate_ne_nil_of_pos _ _ (by decide))
        (not_mem_replicate_of_ne _ _ _ (by decide)),
      drainLines_no_newline id LF _ (replicate_ne_nil_of_pos _ _ (by decide))
        (not_mem_replicate_of_ne _ _ _ (by decide)),
      drainLines_no_newline id LF _ (replicate_ne_nil_of_pos _ _ (by decide))
        (not_mem_replicate_of_ne _ _ _ (by decide))]
    rfl

/-- Lines without a newline, the first non-empty, joined by the terminator, in
one chunk: the emitted lines are the lines in reverse order. -/
theorem emittedWith_intercalate {T : Type} (toStr : Buffer → T) (fill : String → Nat → Nat)
    (chunkSize : Nat) (encoding : Option String) (EOL : Buffer)
    (hEOL : EOL = LF ∨ EOL = CRLF) (first : Buffer) (rest : List Buffer) (hfirst : first ≠ [])
    (hlines : ∀ l ∈ first :: rest, 0x0a ∉ l)
    (hsize : (EOL.intercalate (first :: rest)).length ≤ chunkSize) :
    emittedWith chunkSize EOL toStr fill encoding (EOL.intercalate (first :: rest)) =
      ((first :: rest).reverse).map toStr := by
  rw [emittedWith_single toStr EOL fill chunkSize encoding _
    (intercalate_cons_ne_nil EOL first rest hfirst) hsize,
    drainLines_intercalate toStr EOL hEOL first rest hfirst hlines]

/-- C3, as the code has it: `"a\nb\n"` makes `readEachLine` call `processline`
three times, with `""`, `"b"`, `"a"`, not twice with `"b"`, `"a"`. -/
theorem readEachLine_trailing_terminator_counterexample :
    emitted LF id (fun _ _ => 0) none [97, 10, 98, 10] = [[], [98], [97]] ∧
    emitted LF id (fun _ _ => 0) none [97, 10, 98, 10] ≠ [[98], [97]] := by
  have h : emitted LF id (fun _ _ => 0) none [97, 10, 98, 10] = [[], [98], [97]] := by
    rw [emitted, emittedWith_single id LF _ chunkSize none _ (by decide) (by decide),
      drainLines_LF id _ (by decide) (by decide)]
    decide
  exact ⟨h, by rw [h]; decide⟩

/-- C3, amended: a file of at most 65536 bytes made of lines without 0x0A, the
first of them non-empty, each followed by the terminator (`"\n"` or `"\r\n"`),
makes `readEachLine` emit one empty line first, for the trailing terminator,
and then the lines of the file in reverse order: taken in reverse emission
order and without that first empty line, the emitted lines are the lines of
the file. -/
theorem readEachLine_trailing_terminator_empty_line {T : Type} (toStr : Buffer → T)
    (fill : String → Nat → Nat) (encoding : Option String) (EOL : Buffer)
    (hEOL : EOL = LF ∨ EOL = CRLF) (first : Buffer) (rest : List Buffer) (hfirst : first ≠ [])
    (hlines : ∀ l ∈ first :: rest, 0x0a ∉ l)
    (hsize : (EOL.intercalate (first :: rest) ++ EOL).length ≤ 65536) :
    emitted EOL toStr fill encoding (EOL.intercalate (first :: rest) ++ EOL) =
      toStr [] :: ((first :: rest).reverse).map toStr ∧
    ((emitted EOL toStr fill encoding (EOL.intercalate (first :: rest) ++ EOL)).tail).reverse =
      (first :: rest).map toStr := by
  have hfile : EOL.intercalate (first :: rest) ++ EOL =
      EOL.intercalate (first :: (rest ++ [[]])) := by
    rw [← List.cons_append, intercalate_concat, List.append_nil]
  have h : emitted EOL toStr fill encoding (EOL.intercalate (first :: rest) ++ EOL) =
      toStr [] :: ((first :: rest).reverse).map toStr := by
    rw [hfile] at hsize ⊢
    rw [emitted, emittedWith_intercalate toStr fill chunkSize encoding EOL hEOL first _ hfirst
      (fun l hl => by
        rcases List.mem_cons.mp hl with h1 | h1
        · exact hlines l (by simp [h1])
        · rcases List.mem_append.mp h1 with h2 | h2
          · exact hlines l (by simp [h2])
          · simp at h2
            simp [h2]) hsize]
    simp
  refine ⟨h, ?_⟩
  rw [h, List.tail_cons, ← List.map_reverse, List.reverse_reverse]

/-- C3, amended, at `"a\nb\n"`: the calls are `""`, `"b"`, `"a"`. -/
theorem readEachLine_trailing_terminator_empty_line_witness :
    (LF.intercalate ([97] :: [[98]]) ++ LF = [97, 10, 98, 10]) ∧
    emitted LF id (fun _ _ => 0) none (LF.intercalate ([97] :: [[98]]) ++ LF) =
      [[], [98], [97]] :=
  ⟨by decide,
   (readEachLine_trailing_terminator_empty_line id (fun _ _ => 0) none LF (Or.inl rfl)
      [97] [[98]] (by decide) (by decide) (by decide)).1⟩

/-- C4: on a zero-byte file `readEachLine` opens the file, closes it and returns
normally: it issues no read and never calls `processline`, whatever the
callback, the encoding and the terminator. -/
theorem readEachLine_empty_file {ε σ T : Type} (EOL : Buffer) (toStr : Buffer → T)
    (fill : String → Nat → Nat) (encoding : Option String) (processline : Callback ε σ T)
    (w : World σ T) :
    readEachLine EOL toStr fill (some []) encoding processline w =
      (.ok (), { cb := w.cb, log := w.log ++ [Event.openSync, Event.closeSync] }) ∧
    emitted EOL toStr fill encoding [] = [] := by
  constructor
  · rw [readEachLine, readEachLineWith_eq_runScript]
    simp [script, chunkPlan, chunkSize, runScript]
  · rw [emitted, emittedWith_eq]
    simp [chunkPlan, chunkSize]

/-- C5, the code at the two-byte file `"ab"`: read with chunk size 1 it emits
`"a"` then `"b"`, read with chunk size 2 it emits `"ab"`. The sequence of
emitted lines depends on the chunk size. -/
theorem readEachLineWith_chunk_size_dependent :
    emittedWith 1 LF id (fun _ _ => 0) none [97, 98] = [[97], [98]] ∧
    emittedWith 2 LF id (fun _ _ => 0) none [97, 98] = [[97, 98]] ∧
    emittedWith 1 LF id (fun _ _ => 0) none [97, 98] ≠
      emittedWith 2 LF id (fun _ _ => 0) none [97, 98] := by
  have h1 : emittedWith 1 LF id (fun _ _ => 0) none [97, 98] = [[97], [98]] := by
    have hp : chunkPlan 1 ([97, 98] : Buffer).length = [(0, 1), (1, 1)] := by decide
    have ha : chunkAt [97, 98] (0, 1) = [97] := by decide
    have hb : chunkAt [97, 98] (1, 1) = [98] := by decide
    rw [emittedWith_eq, hp]
    simp only [List.map_cons, List.map_nil, List.flatten_cons, List.flatten_nil, ha, hb]
    rw [drainLines_no_newline id LF [97] (by decide) (by decide),
      drainLines_no_newline id LF [98] (by decide) (by decide)]
    rfl
  have h2 : emittedWith 2 LF id (fun _ _ => 0) none [97, 98] = [[97, 98]] := by
    rw [emittedWith_single id LF _ 2 none _ (by decide) (by decide),
      drainLines_no_newline id LF [97, 98] (by decide) (by decide)]
    rfl
  exact ⟨h1, h2, by rw [h1, h2]; decide⟩

/-- C6, the code at the one-byte file `"\n"` and at `"\nab"`: the one line
passed to `processline` is the whole content, newline included. -/
theorem readEachLine_leading_newline_kept :
    emitted LF id (fun _ _ => 0) none [10] = [[10]] ∧
    emitted LF id (fun _ _ => 0) none [10, 97, 98] = [[10, 97, 98]] ∧
    emitted CRLF id (fun _ _ => 0) none [10, 97, 98] = [[10, 97, 98]] := by
  refine ⟨?_, ?_, ?_⟩
  · rw [emitted, emittedWith_single id LF _ chunkSize none _ (by decide) (by decide),
      drainLines_LF_cons]
    decide
  · rw [emitted, emittedWith_single id LF _ chunkSize none _ (by decide) (by decide),
      drainLines_LF_cons]
    decide
  · rw [emitted, emittedWith_single id CRLF _ chunkSize none _ (by decide) (by decide),
      drainLines_of_some id CRLF _ _ (getLine_cons_no_newline id CRLF 10 [97, 98] (by decide)),
      drainLines_nil]
    rfl

/-- C7: with the two-byte terminator, a file of at most 65536 bytes made of
`N ≥ 1` lines without 0x0A, the first non-empty, joined by `"\r\n"` with no
trailing terminator, makes `readEachLine` emit exactly the `N` lines in reverse
file order. The carriage return before each 0x0A is dropped with it: no emitted
line holds a 0x0A, and none holds a 0x0D unless a line of the file does. -/
theorem readEachLine_crlf_reverse_order {T : Type} (toStr : Buffer → T)
    (fill : String → Nat → Nat) (encoding : Option String) (first : Buffer)
    (rest : List Buffer) (hfirst : first ≠ []) (hlines : ∀ l ∈ first :: rest, 0x0a ∉ l)
    (hsize : (CRLF.intercalate (first :: rest)).length ≤ 65536) :
    emitted CRLF toStr fill encoding (CRLF.intercalate (first :: rest)) =
      ((first :: rest).reverse).map toStr ∧
    (emitted CRLF toStr fill encoding (CRLF.intercalate (first :: rest))).length =
      (first :: rest).length ∧
    ∀ l ∈ emitted CRLF id fill encoding (CRLF.intercalate (first :: rest)),
      0x0a ∉ l ∧ ((∀ x ∈ first :: rest, 0x0d ∉ x) → 0x0d ∉ l) := by
  have h := fun (U : Type) (f : Buffer → U) =>
    emittedWith_intercalate f fill chunkSize encoding CRLF (Or.inr rfl) first rest hfirst
      hlines hsize
  refine ⟨h T toStr, ?_, ?_⟩
  · rw [emitted, h T toStr]
    simp
  · intro l hl
    rw [emitted, h Buffer id, List.map_id, List.mem_reverse] at hl
    exact ⟨hlines l hl, fun hcr => hcr l hl⟩

/-- C7 at `"a\r\nb\r\nc"`: the calls are `"c"`, `"b"`, `"a"`. -/
theorem readEachLine_crlf_reverse_order_witness :
    (CRLF.intercalate ([97] :: [[98], [99]]) = [97, 13, 10, 98, 13, 10, 99]) ∧
    emitted CRLF id (fun _ _ => 0) none (CRLF.intercalate ([97] :: [[98], [99]])) =
      [[99], [98], [97]] :=
  ⟨by decide,
   (readEachLine_crlf_reverse_order id (fun _ _ => 0) none [97] [[98], [99]]
      (by decide) (by decide) (by decide)).1⟩

/-- C10: when the greatest index `i` of the buffer that holds 0x0A is positive,
`getLine` returns a result whose line is made of exactly the bytes at the
indices `i + 1` up to the end of the buffer; these hold no 0x0A, and there may
be none. This is so for every terminator. -/
theorem getLine_line_after_last_newline {T : Type} (toStr : Buffer → T) (EOL : Buffer)
    (buffer : Buffer) (i : Nat) (hi : 0 < i) (h : buffer[i]? = some 0x0a)
    (hlast : ∀ j, i < j → buffer[j]? ≠ some 0x0a) :
    ∃ o, getLine toStr EOL buffer = some o ∧
      o.line = toStr (subarray buffer (i + 1) buffer.length) ∧
      subarray buffer (i + 1) buffer.length = buffer.drop (i + 1) ∧
      0x0a ∉ buffer.drop (i + 1) := by
  refine ⟨_, getLine_of_last_newline toStr EOL buffer i hi h hlast, ?_,
    subarray_length_right buffer (i + 1), ?_⟩
  · rw [subarray_length_right]
  · intro hc
    obtain ⟨k, hk⟩ := List.mem_iff_getElem?.mp hc
    rw [List.getElem?_drop] at hk
    exact hlast (i + 1 + k) (by omega) hk

/-- C10 at the buffers `"a\nbc"` and `"a\n"`: the lines are `"bc"` and `""`. -/
theorem getLine_line_after_last_newline_witness :
    (∃ o, getLine id CRLF [97, 10, 98, 99] = some o ∧
      o.line = id (subarray [97, 10, 98, 99] (1 + 1) ([97, 10, 98, 99] : Buffer).length) ∧
      subarray [97, 10, 98, 99] (1 + 1) ([97, 10, 98, 99] : Buffer).length =
        ([97, 10, 98, 99] : Buffer).drop (1 + 1) ∧
      0x0a ∉ ([97, 10, 98, 99] : Buffer).drop (1 + 1)) ∧
    ([97, 10, 98, 99] : Buffer).drop (1 + 1) = [98, 99] :=
  ⟨getLine_line_after_last_newline id CRLF [97, 10, 98, 99] 1 (by decide) (by decide)
      (fun j hj => by
        obtain ⟨k, rfl⟩ : ∃ k, j = k + 2 := ⟨j - 2, by omega⟩
        rcases k with _ | _ | k <;> simp),
   by decide⟩

/-- C8, what the code does with the encoding: the run of `readEachLine` is the
same for any two encoding arguments (the encoding only reaches `Buffer.alloc`
as a fill pattern, which the read overwrites, and every line is decoded by
`toString()` without an argument). So on the one-byte file `"a"`, whatever text
`toString()` gives, the emitted line is not both the `'hex'` decoding `"61"`
when the caller asks for `'hex'` and the `'latin1'` decoding `"a"` when the
caller asks for `'latin1'`. -/
theorem readEachLine_encoding_not_used {ε σ T : Type} (EOL : Buffer) (toStr : Buffer → T)
    (fill : String → Nat → Nat) (file : Option Buffer) (e1 e2 : Option String)
    (processline : Callback ε σ T) (w : World σ T) :
    readEachLine EOL toStr fill file e1 processline w =
      readEachLine EOL toStr fill file e2 processline w ∧
    (hexDecode [0x61] = "61" ∧ latin1Decode [0x61] = "a") ∧
    ∀ toString : Buffer → String,
      ¬ (emitted LF toString fill (some "hex") [0x61] = [hexDecode [0x61]] ∧
         emitted LF toString fill (some "latin1") [0x61] = [latin1Decode [0x61]]) := by
  refine ⟨?_, ⟨by decide, by decide⟩, ?_⟩
  · cases file with
    | none => rfl
    | some f => rw [readEachLine, readEachLine, readEachLineWith_eq_runScript,
        readEachLineWith_eq_runScript]
  · intro toString ⟨h1, h2⟩
    have h : ∀ e, emitted LF toString fill e [0x61] = [toString [0x61]] := fun e => by
      rw [emitted, emittedWith_single toString LF fill chunkSize e _ (by decide) (by decide),
        drainLines_no_newline toString LF [0x61] (by decide) (by decide)]
    rw [h] at h1 h2
    have h3 : hexDecode [0x61] = latin1Decode [0x61] := by
      injection h1 with h1
      injection h2 with h2
      rw [← h1, ← h2]
    exact absurd h3 (by decide)

/-- C9, as the code has it: on the one-byte file `"a"` with a `processline` that
throws on its first call, `readEachLine` ends with that error after the events
open, read, call, and the log holds no close. The handle stays open. -/
theorem readEachLine_throw_leaves_handle_open :
    (readEachLine LF id (fun _ _ => 0) (some [97]) none
        (fun (_ : Unit) (_ : Buffer) => ((), some "boom")) { cb := (), log := [] }).1 =
      .error (Error.thrown "boom") ∧
    (readEachLine LF id (fun _ _ => 0) (some [97]) none
        (fun (_ : Unit) (_ : Buffer) => ((), some "boom")) { cb := (), log := [] }).2.log =
      [Event.openSync, Event.readSync 1 0, Event.processline [97]] ∧
    closes (readEachLine LF id (fun _ _ => 0) (some [97]) none
        (fun (_ : Unit) (_ : Buffer) => ((), some "boom")) { cb := (), log := [] }).2.log = 0 := by
  have hs : script chunkSize (id : Buffer → Buffer) LF [97] =
      [Event.openSync, Event.readSync 1 0, Event.processline [97], Event.closeSync] := by
    have hp : chunkPlan chunkSize ([97] : Buffer).length = [(0, 1)] :=
      chunkPlan_single chunkSize 1 (by decide) (by decide)
    have hc : chunkAt [97] (0, 1) = [97] := by decide
    rw [script, hp]
    simp only [List.map_cons, List.map_nil, List.flatten_cons, List.flatten_nil, chunkScript, hc]
    rw [drainLines_no_newline id LF [97] (by decide) (by decide)]
    rfl
  rw [readEachLine, readEachLineWith_eq_runScript, hs]
  simp [runScript, callProcessline, closes]

/-- C9, amended: `readEachLine` opens the file handle once. When the run
completes normally the handle is closed exactly once, as the last thing the
run does. When `processline` raises an error on some line, the remaining
processing is aborted (the throwing call is the last event of the run) and the
error propagates to the caller, and the handle has not been closed. -/
theorem readEachLine_handle_closed_on_normal_completion {ε σ T : Type} (EOL : Buffer)
    (toStr : Buffer → T) (fill : String → Nat → Nat) (file : Buffer)
    (encoding : Option String) (processline : Callback ε σ T) (w : World σ T) :
    opens (readEachLine EOL toStr fill (some file) encoding processline w).2.log =
      opens w.log + 1 ∧
    ((readEachLine EOL toStr fill (some file) encoding processline w).1 = .ok () →
      closes (readEachLine EOL toStr fill (some file) encoding processline w).2.log =
        closes w.log + 1 ∧
      (readEachLine EOL toStr fill (some file) encoding processline w).2.log.getLast? =
        some Event.closeSync) ∧
    (∀ e,
      (readEachLine EOL toStr fill (some file) encoding processline w).1 = .error e →
      (∃ e1, e = Error.thrown e1) ∧
      closes (readEachLine EOL toStr fill (some file) encoding processline w).2.log =
        closes w.log ∧
      ∃ line,
        (readEachLine EOL toStr fill (some file) encoding processline w).2.log.getLast? =
          some (Event.processline line)) :=
  readEachLineWith_handle processline chunkSize EOL toStr fill file encoding w

/-- C11, as the code has it: on `"a\nb"` with the one-byte terminator (`i = 1`)
the remainder is `"a"`, not the bytes at the indices 0 to 1, `"a\n"`; on
`"a\r\nb"` with the two-byte terminator (`i = 2`) the remainder is `"a"`, not
the bytes at the indices 0 to 1, `"a\r"`. -/
theorem getLine_remainder_excludes_newline :
    (getLine id LF [97, 10, 98]).map (fun o => o.newBuffer) = some [97] ∧
    subarray [97, 10, 98] 0 (1 + 1) = [97, 10] ∧
    (getLine id CRLF [97, 13, 10, 98]).map (fun o => o.newBuffer) = some [97] ∧
    subarray [97, 13, 10, 98] 0 (1 + 1) = [97, 13] := by
  decide

/-- C11, amended: when the greatest index `i` of the buffer that holds 0x0A is
positive, the remainder `getLine` returns is made of the bytes at the indices
`0` to `i - 1`, the `i` bytes before the 0x0A, if the terminator is a single
byte, and of the bytes at the indices `0` to `i - 2`, the `i - 1` bytes before
the byte that precedes the 0x0A, if the terminator is two bytes. The 0x0A is
in neither. -/
theorem getLine_remainder_before_newline {T : Type} (toStr : Buffer → T) (EOL : Buffer)
    (buffer : Buffer) (i : Nat) (hi : 0 < i) (h : buffer[i]? = some 0x0a)
    (hlast : ∀ j, i < j → buffer[j]? ≠ some 0x0a) :
    ∃ o, getLine toStr EOL buffer = some o ∧
      (EOL.length = 1 →
        o.newBuffer = subarray buffer 0 i ∧ o.newBuffer = buffer.take i ∧
        o.newBuffer.length = i) ∧
      (EOL.length = 2 →
        o.newBuffer = subarray buffer 0 (i - 1) ∧ o.newBuffer = buffer.take (i - 1) ∧
        o.newBuffer.length = i - 1) := by
  have hlen : i < buffer.length := by
    by_contra hc
    rw [List.getElem?_eq_none (by omega)] at h
    exact absurd h (by simp)
  refine ⟨_, getLine_of_last_newline toStr EOL buffer i hi h hlast, fun h1 => ?_, fun h2 => ?_⟩
  · simp only [h1, gt_iff_lt, Nat.lt_irrefl, if_false, subarray_zero_left, List.length_take]
    exact ⟨trivial, trivial, by omega⟩
  · simp only [h2, gt_iff_lt, Nat.one_lt_two, if_true, subarray_zero_left, List.length_take]
    exact ⟨trivial, trivial, by omega⟩

/-- C11, amended, at `"ab\ncd"` (`i = 2`): the remainder is `"ab"` with the
one-byte terminator and `"a"` with the two-byte one. -/
theorem getLine_remainder_before_newline_witness :
    (∃ o, getLine id LF [97, 98, 10, 99, 100] = some o ∧
      (LF.length = 1 →
        o.newBuffer = subarray [97, 98, 10, 99, 100] 0 2 ∧
        o.newBuffer = ([97, 98, 10, 99, 100] : Buffer).take 2 ∧ o.newBuffer.length = 2) ∧
      (LF.length = 2 →
        o.newBuffer = subarray [97, 98, 10, 99, 100] 0 (2 - 1) ∧
        o.newBuffer = ([97, 98, 10, 99, 100] : Buffer).take (2 - 1) ∧
        o.newBuffer.length = 2 - 1)) ∧
    ([97, 98, 10, 99, 100] : Buffer).take 2 = [97, 98] :=
  ⟨getLine_remainder_before_newline id LF [97, 98, 10, 99, 100] 2 (by decide) (by decide)
      (fun j hj => by
        obtain ⟨k, rfl⟩ : ∃ k, j = k + 3 := ⟨j - 3, by omega⟩
        rcases k with _ | _ | k <;> simp),
   by decide⟩

/-- C12, as the code has it: on the buffer `"\n"` the line `getLine` returns is
`"\n"`, not the empty line, and on `"\nab"` it is `"\nab"`. -/
theorem getLine_leading_newline_line_not_empty :
    getLine id LF [10] = some { line := [10], newBuffer := [] } ∧
    getLine id LF [10, 97, 98] = some { line := [10, 97, 98], newBuffer := [] } ∧
    getLine id CRLF [10] = some { line := [10], newBuffer := [] } := by
  decide

/-- C12, amended: for a buffer whose byte at index 0 is 0x0A and that holds no
0x0A at any index `≥ 1`, `getLine` returns a result, not `null`, and the
remainder of that result is empty. -/
theorem getLine_leading_newline_remainder_empty {T : Type} (toStr : Buffer → T)
    (EOL : Buffer) (buffer : Buffer) (h0 : buffer[0]? = some 0x0a)
    (hno : ∀ j, 1 ≤ j → buffer[j]? ≠ some 0x0a) :
    ∃ o, getLine toStr EOL buffer = some o ∧ o.newBuffer = [] := by
  have hne : buffer ≠ [] := by
    rintro rfl
    simp at h0
  exact ⟨_, getLine_of_no_newline toStr EOL buffer hne hno, rfl⟩

/-- C12, amended, at the buffer `"\nab"`. -/
theorem getLine_leading_newline_remainder_empty_witness :
    ([10, 97, 98] : Buffer)[0]? = some 0x0a ∧
    ∃ o, getLine id LF [10, 97, 98] = some o ∧ o.newBuffer = [] :=
  ⟨by decide,
   getLine_leading_newline_remainder_empty id LF [10, 97, 98] (by decide)
      (fun j hj => by
        obtain ⟨k, rfl⟩ : ∃ k, j = k + 1 := ⟨j - 1, by omega⟩
        rcases k with _ | _ | k <;> simp)⟩

/-- C13: for a non-empty buffer that holds no 0x0A at any index `≥ 1`, `getLine`
returns the entire buffer, index 0 to its end, as the line, and an empty
remainder, whatever the terminator. -/
theorem getLine_whole_buffer_when_no_newline {T : Type} (toStr : Buffer → T) (EOL : Buffer)
    (buffer : Buffer) (hne : buffer ≠ []) (hno : ∀ j, 1 ≤ j → buffer[j]? ≠ some 0x0a) :
    getLine toStr EOL buffer = some { line := toStr buffer, newBuffer := [] } ∧
    subarray buffer 0 buffer.length = buffer :=
  ⟨getLine_of_no_newline toStr EOL buffer hne hno, by simp [subarray]⟩

/-- C13 at the buffer `"onlyline"` with the two-byte terminator. -/
theorem getLine_whole_buffer_when_no_newline_witness :
    getLine id CRLF [111, 110, 108, 121, 108, 105, 110, 101] =
      some { line := id [111, 110, 108, 121, 108, 105, 110, 101], newBuffer := [] } ∧
    subarray [111, 110, 108, 121, 108, 105, 110, 101] 0
      ([111, 110, 108, 121, 108, 105, 110, 101] : Buffer).length =
      [111, 110, 108, 121, 108, 105, 110, 101] :=
  getLine_whole_buffer_when_no_newline id CRLF [111, 110, 108, 121, 108, 105, 110, 101]
    (by decide)
    (fun j hj => by
      obtain ⟨k, rfl⟩ : ∃ k, j = k + 1 := ⟨j - 1, by omega⟩
      rcases k with _ | _ | _ | _ | _ | _ | _ | _ | k <;> simp)

/-- C14: `getLine` returns `null` if and only if the buffer is empty; for every
non-empty buffer it returns a line and a remainder; and on the empty buffer the
drain loop of the caller stops at once, without a call, leaving the world as it
was. -/
theorem getLine_null_iff_empty {ε σ T : Type} (toStr : Buffer → T) (EOL : Buffer)
    (buffer : Buffer) (processline : Callback ε σ T) (w : World σ T) :
    (getLine toStr EOL buffer = none ↔ buffer = []) ∧
    (buffer ≠ [] → ∃ line newBuffer,
      getLine toStr EOL buffer = some { line := line, newBuffer := newBuffer }) ∧
    drain processline toStr EOL [] w = (.ok [], w) := by
  refine ⟨getLine_eq_none_iff toStr EOL buffer, fun hne => ?_, drain_nil processline toStr EOL w⟩
  cases hg : getLine toStr EOL buffer with
  | none => exact absurd ((getLine_eq_none_iff toStr EOL buffer).mp hg) hne
  | some o => exact ⟨o.line, o.newBuffer, rfl⟩

/-! ### The chunk plan -/

theorem reads_append {T : Type} (a b : List (Event T)) : reads (a ++ b) = reads a ++ reads b := by
  simp [reads]

theorem reads_map_processline {T : Type} (lines : List T) :
    reads (lines.map Event.processline) = [] := by
  induction lines with
  | nil => rfl
  | cons l rest ih =>
    simp only [reads] at ih
    simp [reads, ih]

theorem reads_chunkScript {T : Type} (toStr : Buffer → T) (EOL file : Buffer)
    (request : Nat × Nat) : reads (chunkScript toStr EOL file request) = [request] := by
  have h := reads_map_processline (drainLines toStr EOL (chunkAt file request))
  simp only [reads] at h
  simp [chunkScript, reads, h]

theorem reads_chunkScripts {T : Type} (toStr : Buffer → T) (EOL file : Buffer)
    (plan : List (Nat × Nat)) :
    reads ((plan.map (chunkScript toStr EOL file)).flatten) = plan := by
  induction plan with
  | nil => rfl
  | cons r rest ih =>
    rw [List.map_cons, List.flatten_cons, reads_append, reads_chunkScript, ih]
    rfl

/-- The read requests of a run are the chunk plan of the file size. -/
theorem reads_runWith {T : Type} (toStr : Buffer → T) (EOL : Buffer)
    (fill : String → Nat → Nat) (chunkSize : Nat) (encoding : Option String) (file : Buffer) :
    reads (runWith chunkSize EOL toStr fill encoding file).2.log =
      chunkPlan chunkSize file.length := by
  rw [runWith_eq]
  simp only [script, reads_append, reads_chunkScripts]
  have h1 : reads ([Event.openSync] : List (Event T)) = [] := rfl
  have h2 : reads ([Event.closeSync] : List (Event T)) = [] := rfl
  rw [h1, h2, List.nil_append, List.append_nil]

/-- The chunk plan of a file of at least one byte, with `c = min chunkSize fsize`
the size of a full chunk. -/
theorem chunkPlan_eq (chunkSize fsize : Nat) (hc : 0 < chunkSize) (hf : 0 < fsize) :
    chunkPlan chunkSize fsize =
      (List.range (fsize / min chunkSize fsize)).map
          (fun i => (min chunkSize fsize * i, min chunkSize fsize)) ++
        (if fsize % min chunkSize fsize > 0 then
          [(min chunkSize fsize * (fsize / min chunkSize fsize), fsize % min chunkSize fsize)]
         else []) := by
  have hb : (if fsize < chunkSize then fsize else chunkSize) = min chunkSize fsize := by
    split <;> omega
  have hpos : min chunkSize fsize ≠ 0 := by omega
  simp only [chunkPlan, hb, if_neg hpos]

/-- The request at index `k` of a plan of `n` full chunks of `c` bytes and a
remainder of `r` bytes. -/
theorem getElem?_plan (c n r k : Nat) :
    ((List.range n).map (fun i => (c * i, c)) ++ (if r > 0 then [(c * n, r)] else []))[k]? =
      if k < n then some (c * k, c)
      else if k = n ∧ 0 < r then some (c * n, r) else none := by
  by_cases hk : k < n
  · rw [List.getElem?_append_left (by simpa using hk), if_pos hk]
    simp [List.getElem?_range hk]
  · rw [List.getElem?_append_right (by simpa using hk), if_neg hk]
    simp only [List.length_map, List.length_range]
    by_cases hr : 0 < r
    · simp only [gt_iff_lt, hr, if_true, and_true]
      by_cases hkn : k = n
      · simp [hkn]
      · rw [if_neg hkn]
        obtain ⟨m, hm⟩ : ∃ m, k - n = m + 1 := ⟨k - n - 1, by omega⟩
        simp [hm]
    · simp [hr]

theorem mem_plan (c n r : Nat) (p : Nat × Nat) :
    p ∈ (List.range n).map (fun i => (c * i, c)) ++ (if r > 0 then [(c * n, r)] else []) ↔
      (∃ i, i < n ∧ p = (c * i, c)) ∨ (0 < r ∧ p = (c * n, r)) := by
  rw [List.mem_append, List.mem_map]
  constructor
  · rintro (⟨i, hi, rfl⟩ | h)
    · exact Or.inl ⟨i, List.mem_range.mp hi, rfl⟩
    · by_cases hr : r > 0
      · rw [if_pos hr, List.mem_singleton] at h
        exact Or.inr ⟨hr, h⟩
      · rw [if_neg hr] at h
        simp at h
  · rintro (⟨i, hi, rfl⟩ | ⟨hr, rfl⟩)
    · exact Or.inl ⟨i, List.mem_range.mpr hi, rfl⟩
    · exact Or.inr (by rw [if_pos hr]; simp)

/-- Consecutive requests of a plan touch: each starts where the one before it
ends. -/
theorem plan_contiguous (c n r k : Nat) (p q : Nat × Nat)
    (hp : ((List.range n).map (fun i => (c * i, c)) ++
      (if r > 0 then [(c * n, r)] else []))[k]? = some p)
    (hq : ((List.range n).map (fun i => (c * i, c)) ++
      (if r > 0 then [(c * n, r)] else []))[k + 1]? = some q) :
    p.1 + p.2 = q.1 := by
  rw [getElem?_plan] at hp hq
  have hk : k < n := by
    by_contra hc
    rw [if_neg (by omega), if_neg (by omega)] at hq
    simp at hq
  rw [if_pos hk] at hp
  injection hp with hp
  subst hp
  split at hq
  · injection hq with hq
    subst hq
    simp [Nat.mul_succ]
  · split at hq
    · rename_i h2
      injection hq with hq
      subst hq
      rw [← h2.1]
      simp [Nat.mul_succ]
    · simp at hq

/-- The requests of a plan come in increasing offset and do not overlap. -/
theorem plan_pairwise (c n r : Nat) :
    ((List.range n).map (fun i => (c * i, c)) ++
      (if r > 0 then [(c * n, r)] else [])).Pairwise (fun p q => p.1 + p.2 ≤ q.1) := by
  rw [List.pairwise_append]
  refine ⟨?_, ?_, ?_⟩
  · rw [List.pairwise_map]
    refine (List.pairwise_lt_range n).imp ?_
    intro a b hab
    calc c * a + c = c * (a + 1) := by rw [Nat.mul_succ]
      _ ≤ c * b := Nat.mul_le_mul_left c hab
  · split <;> simp
  · intro a ha b hb
    obtain ⟨i, hi, rfl⟩ := List.mem_map.mp ha
    have hin : i < n := List.mem_range.mp hi
    split at hb
    · rw [List.mem_singleton] at hb
      subst hb
      calc c * i + c = c * (i + 1) := by rw [Nat.mul_succ]
        _ ≤ c * n := Nat.mul_le_mul_left c hin
    · simp at hb

/-- The requests of a plan cover the offsets below `c * n + r`, and no other. -/
theorem plan_cover (c n r : Nat) (hc : 0 < c) (x : Nat) :
    x < c * n + r ↔
      ∃ p ∈ (List.range n).map (fun i => (c * i, c)) ++ (if r > 0 then [(c * n, r)] else []),
        p.1 ≤ x ∧ x < p.1 + p.2 := by
  constructor
  · intro hx
    by_cases hxn : x / c < n
    · refine ⟨(c * (x / c), c), (mem_plan c n r _).mpr (Or.inl ⟨x / c, hxn, rfl⟩), ?_, ?_⟩
      · exact Nat.mul_div_le x c
      · have := Nat.div_add_mod x c
        have := Nat.mod_lt x hc
        simp only
        omega
    · have hge : c * n ≤ x := by
        have h1 : c * n ≤ c * (x / c) := Nat.mul_le_mul_left c (by omega)
        exact Nat.le_trans h1 (Nat.mul_div_le x c)
      have hr : 0 < r := by omega
      exact ⟨(c * n, r), (mem_plan c n r _).mpr (Or.inr ⟨hr, rfl⟩), hge, hx⟩
  · rintro ⟨p, hp, h1, h2⟩
    rcases (mem_plan c n r p).mp hp with ⟨i, hi, rfl⟩ | ⟨_, rfl⟩
    · have h3 : c * (i + 1) ≤ c * n := Nat.mul_le_mul_left c hi
      rw [Nat.mul_succ] at h3
      simp only at h2
      omega
    · exact h2

/-- The lengths of the requests of a plan add up to `c * n + r`. -/
theorem plan_sum (c n r : Nat) :
    (((List.range n).map (fun i => (c * i, c)) ++
      (if r > 0 then [(c * n, r)] else [])).map Prod.snd).sum = c * n + r := by
  have h1 : (((List.range n).map (fun i => (c * i, c))).map Prod.snd).sum = c * n := by
    induction n with
    | zero => simp
    | succ n ih =>
      rw [List.range_succ, List.map_append, List.map_append, List.sum_append, ih]
      simp [Nat.mul_succ]
  rw [List.map_append, List.sum_append, h1]
  split
  · simp
  · simp
    omega

theorem requests_eq {T : Type} (toStr : Buffer → T) (EOL : Buffer)
    (fill : String → Nat → Nat) (encoding : Option String) (file : Buffer)
    (hf : 1 ≤ file.length) :
    requests EOL toStr fill encoding file =
      (List.range (file.length / min 65536 file.length)).map
          (fun i => (min 65536 file.length * i, min 65536 file.length)) ++
        (if file.length % min 65536 file.length > 0 then
          [(min 65536 file.length * (file.length / min 65536 file.length),
            file.length % min 65536 file.length)]
         else []) := by
  rw [requests, reads_runWith, chunkPlan_eq chunkSize file.length (by decide) hf]
  rfl

/-- C15: for a file of `fsize ≥ 1` bytes, with `chunkSize = min(65536, fsize)`,
`numFullChunks = fsize / chunkSize` and `remainder = fsize % chunkSize`, the
read requests `(offset, length)` of `readEachLine` are `(chunkSize * i,
chunkSize)` for `i = 0, …, numFullChunks - 1` in increasing `i`, followed by
`(chunkSize * numFullChunks, remainder)` when `remainder > 0`. The ranges are
contiguous (each starts where the one before ends, the first at 0), non-empty,
pairwise disjoint, they cover the offsets below `fsize` and no other, and their
lengths add up to `fsize`. -/
theorem readEachLine_chunk_plan {T : Type} (toStr : Buffer → T) (EOL : Buffer)
    (fill : String → Nat → Nat) (encoding : Option String) (file : Buffer)
    (hf : 1 ≤ file.length) :
    requests EOL toStr fill encoding file =
      (List.range (file.length / min 65536 file.length)).map
          (fun i => (min 65536 file.length * i, min 65536 file.length)) ++
        (if file.length % min 65536 file.length > 0 then
          [(min 65536 file.length * (file.length / min 65536 file.length),
            file.length % min 65536 file.length)]
         else []) ∧
    (∀ p, (requests EOL toStr fill encoding file)[0]? = some p → p.1 = 0) ∧
    (∀ k p q, (requests EOL toStr fill encoding file)[k]? = some p →
      (requests EOL toStr fill encoding file)[k + 1]? = some q → p.1 + p.2 = q.1) ∧
    (∀ p ∈ requests EOL toStr fill encoding file, 0 < p.2) ∧
    (requests EOL toStr fill encoding file).Pairwise (fun p q => p.1 + p.2 ≤ q.1) ∧
    (∀ x, x < file.length ↔
      ∃ p ∈ requests EOL toStr fill encoding file, p.1 ≤ x ∧ x < p.1 + p.2) ∧
    ((requests EOL toStr fill encoding file).map Prod.snd).sum = file.length := by
  have hc : 0 < min 65536 file.length := by omega
  have hsum : min 65536 file.length * (file.length / min 65536 file.length) +
      file.length % min 65536 file.length = file.length := Nat.div_add_mod _ _
  rw [requests_eq toStr EOL fill encoding file hf]
  refine ⟨rfl, ?_, ?_, ?_, ?_, ?_, ?_⟩
  · intro p hp
    rw [getElem?_plan] at hp
    split at hp
    · injection hp with hp
      subst hp
      rfl
    · split at hp
      · rename_i h2
        injection hp with hp
        subst hp
        rw [← h2.1]
        rfl
      · simp at hp
  · intro k p q hp hq
    exact plan_contiguous _ _ _ k p q hp hq
  · intro p hp
    rcases (mem_plan _ _ _ p).mp hp with ⟨i, _, rfl⟩ | ⟨hr, rfl⟩
    · exact hc
    · exact hr
  · exact plan_pairwise _ _ _
  · intro x
    rw [← plan_cover _ _ _ hc x, hsum]
  · rw [plan_sum, hsum]

/-- C15 at a file of 65537 bytes: the requests are `(0, 65536)` and `(65536, 1)`. -/
theorem readEachLine_chunk_plan_witness :
    1 ≤ (List.replicate 65537 97).length ∧
    requests LF id (fun _ _ => 0) none (List.replicate 65537 97) = [(0, 65536), (65536, 1)] :=
  ⟨by rw [List.length_replicate]; decide,
   (readEachLine_chunk_plan id LF (fun _ _ => 0) none (List.replicate 65537 97)
      (by rw [List.length_replicate]; decide)).1.trans
     (by rw [List.length_replicate]; decide)⟩

theorem length_plan (c n r : Nat) :
    ((List.range n).map (fun i => (c * i, c)) ++ (if r > 0 then [(c * n, r)] else [])).length =
      n + (if r > 0 then 1 else 0) := by
  split <;> simp

/-- C16, as the code has it: on a file of 131073 bytes the read requests are
`(0, 65536)`, `(65536, 65536)`, `(131072, 1)`. The offsets increase: the chunk
at offset 0 is fetched first and the chunk at the end of the file last. -/
theorem readEachLine_offsets_not_decreasing :
    requests LF id (fun _ _ => 0) none (List.replicate 131073 97) =
      [(0, 65536), (65536, 65536), (131072, 1)] ∧
    ¬ ((requests LF id (fun _ _ => 0) none (List.replicate 131073 97)).map
        Prod.fst).Pairwise (fun a b => a > b) := by
  have h : requests LF id (fun _ _ => 0) none (List.replicate 131073 97) =
      [(0, 65536), (65536, 65536), (131072, 1)] := by
    rw [requests, reads_runWith, List.length_replicate]
    decide
  refine ⟨h, ?_⟩
  rw [h]
  decide

/-- C16, amended: for every file that needs more than one chunk (more than 65536
bytes) there are at least two read requests and their offsets are strictly
increasing: the chunk at offset 0 is fetched first, the chunk that ends at the
end of the file is fetched last. -/
theorem readEachLine_offsets_increasing {T : Type} (toStr : Buffer → T) (EOL : Buffer)
    (fill : String → Nat → Nat) (encoding : Option String) (file : Buffer)
    (hbig : 65536 < file.length) :
    2 ≤ (requests EOL toStr fill encoding file).length ∧
    ((requests EOL toStr fill encoding file).map Prod.fst).Pairwise (fun a b => a < b) ∧
    (requests EOL toStr fill encoding file)[0]? = some (0, 65536) ∧
    ∃ p, (requests EOL toStr fill encoding file).getLast? = some p ∧
      p.1 + p.2 = file.length := by
  have hmin : min 65536 file.length = 65536 := by omega
  have hsum : 65536 * (file.length / 65536) + file.length % 65536 = file.length :=
    Nat.div_add_mod _ _
  have hn : 1 ≤ file.length / 65536 := by omega
  rw [requests_eq toStr EOL fill encoding file (by omega), hmin]
  refine ⟨?_, ?_, ?_, ?_⟩
  · rw [length_plan]
    split <;> omega
  · rw [List.pairwise_map]
    refine (plan_pairwise 65536 (file.length / 65536) (file.length % 65536)).imp_of_mem ?_
    intro p q hp _ hpq
    have hpos : 0 < p.2 := by
      rcases (mem_plan _ _ _ p).mp hp with ⟨i, _, rfl⟩ | ⟨hr, rfl⟩
      · exact Nat.succ_pos _
      · exact hr
    omega
  · rw [getElem?_plan, if_pos (by omega)]
  · rw [List.getLast?_eq_getElem?, length_plan, getElem?_plan]
    by_cases hr : file.length % 65536 > 0
    · refine ⟨(65536 * (file.length / 65536), file.length % 65536), ?_, hsum⟩
      rw [if_pos hr, if_neg (by omega), if_pos ⟨by omega, hr⟩]
    · refine ⟨(65536 * (file.length / 65536 - 1), 65536), ?_, ?_⟩
      · rw [if_neg hr, if_pos (by omega), Nat.add_zero]
      · simp only
        omega

/-- C16, amended, at a file of 65537 bytes: the offsets are 0, then 65536. -/
theorem readEachLine_offsets_increasing_witness :
    65536 < (List.replicate 65537 97).length ∧
    ((requests CRLF id (fun _ _ => 0) none (List.replicate 65537 97)).map
      Prod.fst).Pairwise (fun a b => a < b) ∧
    (requests CRLF id (fun _ _ => 0) none (List.replicate 65537 97))[0]? = some (0, 65536) :=
  ⟨by rw [List.length_replicate]; decide,
   (readEachLine_offsets_increasing id CRLF (fun _ _ => 0) none (List.replicate 65537 97)
      (by rw [List.length_replicate]; decide)).2.1,
   (readEachLine_offsets_increasing id CRLF (fun _ _ => 0) none (List.replicate 65537 97)
      (by rw [List.length_replicate]; decide)).2.2.1⟩

/-! ### The carry buffer -/

theorem withValue_snd {ε σ T α β : Type} (b : β) (r : Except (Error ε) α × World σ T) :
    (withValue b r).2 = r.2 := by
  rcases r with ⟨e | a, w⟩ <;> rfl

theorem withValue_fst {ε σ T α β : Type} (b : β) (r : Except (Error ε) α × World σ T) :
    (withValue b r).1 = .ok b ∨ ∃ e, (withValue b r).1 = .error e := by
  rcases r with ⟨e | a, w⟩
  · exact Or.inr ⟨e, rfl⟩
  · exact Or.inl rfl

/-- C17: for every file, callback and terminator, the carry buffer `curBuffer`
is empty whenever the drain loop ends without an error; so a fetch appends the
chunk to an empty buffer and the buffer handed to `getLine` is exactly the
fetched chunk; the `for` loop ends with an empty `curBuffer`; and the whole run
is the open, then for every read request the read and the calls for the lines
of that chunk alone, then the close: the final emission guarded by
`if (curBuffer.length)` never calls `processline`. -/
theorem curBuffer_empty_after_every_drain {ε σ T : Type} (processline : Callback ε σ T)
    (toStr : Buffer → T) (EOL : Buffer) (fill : String → Nat → Nat) (c : Nat)
    (file : Buffer) (encoding : Option String) (curBuffer : Buffer) (w : World σ T) :
    ((drain processline toStr EOL curBuffer w).1 = .ok [] ∨
      ∃ e, (drain processline toStr EOL curBuffer w).1 = .error e) ∧
    (∀ length position, position + length ≤ file.length →
      fetchAndDrain processline toStr EOL fill (encoding.getD "utf8") file length position []
          w =
        drain processline toStr EOL (subarray file position (position + length))
          { cb := w.cb, log := w.log ++ [Event.readSync length position] }) ∧
    (∀ bufferSize numOfLoops, bufferSize * numOfLoops ≤ file.length →
      (forLoop processline toStr EOL fill (encoding.getD "utf8") file bufferSize numOfLoops 0
          [] w).1 = .ok (numOfLoops, []) ∨
      ∃ e, (forLoop processline toStr EOL fill (encoding.getD "utf8") file bufferSize
          numOfLoops 0 [] w).1 = .error e) ∧
    readEachLineWith c EOL toStr fill (some file) encoding processline w =
      runScript processline
        ([Event.openSync] ++
          ((chunkPlan c file.length).map fun request =>
            Event.readSync request.2 request.1 ::
              (drainLines toStr EOL (subarray file request.1 (request.1 + request.2))).map
                Event.processline).flatten ++
          [Event.closeSync]) w ∧
    emittedWith c EOL toStr fill encoding file =
      ((chunkPlan c file.length).map fun request =>
        drainLines toStr EOL (subarray file request.1 (request.1 + request.2))).flatten := by
  refine ⟨?_, ?_, ?_, ?_, ?_⟩
  · rw [drain_eq_runScript]
    exact withValue_fst _ _
  · intro length position h
    simp only [fetchAndDrain, readSync_buf_alloc fill _ file position length h, List.nil_append]
  · intro bufferSize numOfLoops h
    rw [forLoop_eq processline toStr EOL fill _ file bufferSize numOfLoops h numOfLoops 0
      (by omega) w]
    exact withValue_fst _ _
  · exact readEachLineWith_eq_runScript processline toStr EOL fill c file encoding w
  · exact emittedWith_eq toStr EOL fill c encoding file

/-! ### Byte conservation -/

theorem intercalate_modifyHead_cons (sep : Buffer) (b : Nat) (l : List Buffer) (hl : l ≠ []) :
    sep.intercalate (l.modifyHead (List.cons b)) = b :: sep.intercalate l := by
  cases l with
  | nil => exact absurd rfl hl
  | cons x rest =>
    cases rest with
    | nil => simp [intercalate_singleton]
    | cons y rest =>
      rw [List.modifyHead_cons, intercalate_cons_cons, intercalate_cons_cons]
      simp

/-- The byte slices a file of one chunk is cut into, put back in file order and
joined with 0x0A, are the file. -/
theorem emitted_id_bytes_conserved (fill : String → Nat → Nat) (encoding : Option String)
    (file : Buffer) (hne : file ≠ []) (hsize : file.length ≤ 65536) :
    LF.intercalate (emitted LF id fill encoding file).reverse = file := by
  rw [emitted, emittedWith_single id LF fill chunkSize encoding file hne hsize]
  cases file with
  | nil => exact absurd rfl hne
  | cons b tail =>
    rw [drainLines_LF_cons, List.map_id, List.reverse_reverse, LF,
      intercalate_modifyHead_cons _ b _ (splitOn_ne_nil tail)]
    congr 1
    exact List.intercalate_splitOn tail 0x0a

/-- The line `getLine` returns is `toString()` of a byte slice: the result with
any decoder is the result with the identity, decoded. -/
theorem getLineLoop_map {T : Type} (toStr : Buffer → T) (EOL buffer : Buffer) (n : Nat) :
    getLineLoop toStr EOL buffer n =
      (getLineLoop id EOL buffer n).map
        (fun o => { line := toStr o.line, newBuffer := o.newBuffer }) := by
  induction n with
  | zero => rfl
  | succ i ih =>
    rw [getLineLoop, getLineLoop]
    split
    · rfl
    · exact ih

/-- The lines the drain loop emits are the decodings of the byte slices it cuts. -/
theorem drainLines_map {T : Type} (toStr : Buffer → T) (EOL buffer : Buffer) :
    drainLines toStr EOL buffer = (drainLines id EOL buffer).map toStr := by
  generalize hn : buffer.length = n
  induction n using Nat.strong_induction_on generalizing buffer with
  | _ n ih =>
    cases hg : getLine id EOL buffer with
    | none =>
      rw [(getLine_eq_none_iff id EOL buffer).mp hg, drainLines_nil, drainLines_nil]
      rfl
    | some o =>
      have hlt := getLine_newBuffer_length_lt id EOL buffer o hg
      have hg2 : getLine toStr EOL buffer =
          some { line := toStr o.line, newBuffer := o.newBuffer } := by
        rw [getLine, getLineLoop_map, ← getLine, hg]
        rfl
      rw [drainLines_of_some toStr EOL buffer _ hg2, drainLines_of_some id EOL buffer o hg,
        List.map_cons]
      simp only
      rw [ih o.newBuffer.length (by omega) o.newBuffer rfl]

/-- Every line passed to `processline` is `toString()` of a byte slice of the
file: the emitted lines are the emitted byte slices, decoded one by one. This
holds for every file, chunk size and terminator. -/
theorem emittedWith_map {T : Type} (toStr : Buffer → T) (EOL : Buffer)
    (fill : String → Nat → Nat) (c : Nat) (encoding : Option String) (file : Buffer) :
    emittedWith c EOL toStr fill encoding file =
      (emittedWith c EOL id fill encoding file).map toStr := by
  rw [emittedWith_eq, emittedWith_eq, List.map_flatten, List.map_map]
  congr 1
  apply List.map_congr_left
  intro request _
  exact drainLines_map toStr EOL _

/-- C18, as the code has it: `readEachLine` passes to `processline` the text
`toString()` makes of each byte slice, and `toString()` replaces every
ill-formed byte by U+FFFD. The three-byte file `FF 0A 80` emits the one
character U+FFFD twice, and so does the seven-byte file `EF BF BD 0A EF BF BD`: the emitted
lines are the same for two different contents, so joining them cannot give the
content of the file back byte for byte. -/
theorem readEachLine_bytes_lost_by_decoding :
    emitted LF utf8ToString (fun _ _ => 0) none [0xFF, 0x0A, 0x80] =
      [String.mk [Char.ofNat 0xFFFD], String.mk [Char.ofNat 0xFFFD]] ∧
    emitted LF utf8ToString (fun _ _ => 0) none [0xEF, 0xBF, 0xBD, 0x0A, 0xEF, 0xBF, 0xBD] =
      [String.mk [Char.ofNat 0xFFFD], String.mk [Char.ofNat 0xFFFD]] ∧
    ([0xFF, 0x0A, 0x80] : Buffer) ≠ [0xEF, 0xBF, 0xBD, 0x0A, 0xEF, 0xBF, 0xBD] := by
  refine ⟨?_, ?_, by decide⟩
  · rw [emitted, emittedWith_single utf8ToString LF _ chunkSize none _ (by decide) (by decide),
      drainLines_LF utf8ToString _ (by decide) (by decide)]
    decide
  · rw [emitted, emittedWith_single utf8ToString LF _ chunkSize none _ (by decide) (by decide),
      drainLines_LF utf8ToString _ (by decide) (by decide)]
    decide

/-- C18, amended: with the one-byte terminator, for every non-empty file of at
most 65536 bytes, whether or not it starts or ends with 0x0A, the lines passed
to `processline` are the `toString()` decodings of byte slices of the file
that, taken in reverse emission order and joined with the single byte 0x0A,
are the content of the file byte for byte. Hence whenever the decoding loses
nothing on these slices (`encode (toString s) = s` for each of them), the
emitted lines, encoded back, taken in reverse emission order and joined with
0x0A, are the content of the file byte for byte. -/
theorem readEachLine_byte_slices_conserved {T : Type} (toStr : Buffer → T)
    (fill : String → Nat → Nat) (encoding : Option String) (file : Buffer)
    (hne : file ≠ []) (hsize : file.length ≤ 65536) :
    emitted LF toStr fill encoding file = (emitted LF id fill encoding file).map toStr ∧
    LF.intercalate (emitted LF id fill encoding file).reverse = file ∧
    ∀ encode : T → Buffer,
      (∀ s ∈ emitted LF id fill encoding file, encode (toStr s) = s) →
      LF.intercalate ((emitted LF toStr fill encoding file).reverse.map encode) = file := by
  have hmap : emitted LF toStr fill encoding file =
      (emitted LF id fill encoding file).map toStr :=
    emittedWith_map toStr LF fill chunkSize encoding file
  have hid := emitted_id_bytes_conserved fill encoding file hne hsize
  refine ⟨hmap, hid, fun encode henc => ?_⟩
  have hround : ((emitted LF toStr fill encoding file).reverse.map encode) =
      (emitted LF id fill encoding file).reverse := by
    rw [hmap, ← List.map_reverse, List.map_map]
    conv_rhs => rw [← List.map_id (emitted LF id fill encoding file).reverse]
    apply List.map_congr_left
    intro s hs
    exact henc s (List.mem_reverse.mp hs)
  rw [hround, hid]

/-- C18, amended, at `"\na\n\nb\n"`, a content that starts and ends with 0x0A,
read as UTF-8 and encoded back by the character codes: the slices are `""`,
`"b"`, `""`, `"\na"` and the lines join back to the content. -/
theorem readEachLine_byte_slices_conserved_witness :
    (([10, 97, 10, 10, 98, 10] : Buffer) ≠ [] ∧
      ([10, 97, 10, 10, 98, 10] : Buffer).length ≤ 65536) ∧
    emitted LF id (fun _ _ => 0) none [10, 97, 10, 10, 98, 10] = [[], [98], [], [10, 97]] ∧
    LF.intercalate
        ((emitted LF utf8ToString (fun _ _ => 0) none
          [10, 97, 10, 10, 98, 10]).reverse.map
          (fun t => t.toList.map Char.toNat)) =
      [10, 97, 10, 10, 98, 10] := by
  have hid : emitted LF id (fun _ _ => 0) none [10, 97, 10, 10, 98, 10] =
      [[], [98], [], [10, 97]] := by
    rw [emitted, emittedWith_single id LF _ chunkSize none _ (by decide) (by decide),
      drainLines_LF_cons]
    decide
  exact ⟨by decide, hid,
    (readEachLine_byte_slices_conserved utf8ToString (fun _ _ => 0) none
      [10, 97, 10, 10, 98, 10] (by decide) (by decide)).2.2
      (fun t => t.toList.map Char.toNat)
      (fun s hs => by
        rw [hid] at hs
        simp only [List.mem_cons, List.mem_singleton, List.not_mem_nil, or_false] at hs
        rcases hs with h | h | h | h <;> subst h <;> decide)⟩

/-! ### Termination of the drain loop -/

/-- The remainder the scan returns is a leading part of the buffer. -/
theorem getLineLoop_newBuffer_take {T : Type} (toStr : Buffer → T) (EOL buffer : Buffer)
    (n : Nat) (o : LineObj T) (h : getLineLoop toStr EOL buffer n = some o) :
    ∃ stop, o.newBuffer = buffer.take stop := by
  induction n with
  | zero => simp [getLineLoop] at h
  | succ i ih =>
    unfold getLineLoop at h
    split at h
    · injection h with h
      subst h
      exact ⟨_, subarray_zero_left buffer _⟩
    · exact ih h

/-- The drain loop takes at most one line per byte out of a buffer. -/
theorem length_drainLines_le {T : Type} (toStr : Buffer → T) (EOL buffer : Buffer) :
    (drainLines toStr EOL buffer).length ≤ buffer.length := by
  generalize hn : buffer.length = n
  induction n using Nat.strong_induction_on generalizing buffer with
  | _ n ih =>
    cases hg : getLine toStr EOL buffer with
    | none =>
      rw [(getLine_eq_none_iff toStr EOL buffer).mp hg, drainLines_nil]
      exact Nat.zero_le _
    | some o =>
      have hlt := getLine_newBuffer_length_lt toStr EOL buffer o hg
      rw [drainLines_of_some toStr EOL buffer o hg, List.length_cons]
      have := ih o.newBuffer.length (by omega) o.newBuffer rfl
      omega

/-- A run logs a leading part of its events, in order. -/
theorem runScript_log_take {ε σ T : Type} (processline : Callback ε σ T)
    (events : List (Event T)) (w : World σ T) :
    ∃ k, (runScript processline events w).2.log = w.log ++ events.take k := by
  induction events generalizing w with
  | nil => exact ⟨0, by simp [runScript]⟩
  | cons x rest ih =>
    cases x with
    | openSync =>
      obtain ⟨k, hk⟩ := ih { cb := w.cb, log := w.log ++ [Event.openSync] }
      exact ⟨k + 1, by rw [runScript, hk]; simp⟩
    | closeSync =>
      obtain ⟨k, hk⟩ := ih { cb := w.cb, log := w.log ++ [Event.closeSync] }
      exact ⟨k + 1, by rw [runScript, hk]; simp⟩
    | readSync l p =>
      obtain ⟨k, hk⟩ := ih { cb := w.cb, log := w.log ++ [Event.readSync l p] }
      exact ⟨k + 1, by rw [runScript, hk]; simp⟩
    | processline line =>
      rw [runScript]
      cases hp : (processline w.cb line).2 with
      | some e1 =>
        have hc : callProcessline processline line w =
            (.error (.thrown e1),
              { cb := (processline w.cb line).1, log := w.log ++ [Event.processline line] }) := by
          simp only [callProcessline, hp]
        rw [hc]
        exact ⟨1, by simp⟩
      | none =>
        have hc : callProcessline processline line w =
            (.ok (),
              { cb := (processline w.cb line).1, log := w.log ++ [Event.processline line] }) := by
          simp only [callProcessline, hp]
        rw [hc]
        obtain ⟨k, hk⟩ := ih
          { cb := (processline w.cb line).1, log := w.log ++ [Event.processline line] }
        exact ⟨k + 1, by simp only; rw [hk]; simp⟩

/-- C19: for every non-empty buffer and every terminator, `getLine` returns a
result whose `newBuffer` is a leading part of the buffer and strictly shorter
than it. Hence for every buffer the drain loop, a total function, takes at most
`buffer.length` lines out of the buffer, and whatever the callback does it
makes at most `buffer.length` calls to `processline` and nothing else. -/
theorem drain_terminates_within_length {ε σ T : Type} (processline : Callback ε σ T)
    (toStr : Buffer → T) (EOL : Buffer) (buffer : Buffer) (w : World σ T) :
    (buffer ≠ [] → ∃ o, getLine toStr EOL buffer = some o ∧
      o.newBuffer = buffer.take o.newBuffer.length ∧
      o.newBuffer.length < buffer.length) ∧
    (drainLines toStr EOL buffer).length ≤ buffer.length ∧
    ∃ lines : List T, lines.length ≤ buffer.length ∧
      (drain processline toStr EOL buffer w).2.log = w.log ++ lines.map Event.processline := by
  refine ⟨fun hne => ?_, length_drainLines_le toStr EOL buffer, ?_⟩
  · cases hg : getLine toStr EOL buffer with
    | none => exact absurd ((getLine_eq_none_iff toStr EOL buffer).mp hg) hne
    | some o =>
      obtain ⟨stop, hstop⟩ := getLineLoop_newBuffer_take toStr EOL buffer _ o hg
      refine ⟨o, rfl, ?_, getLine_newBuffer_length_lt toStr EOL buffer o hg⟩
      rw [hstop, List.length_take]
      exact List.take_eq_take.mpr (by omega)
  · rw [drain_eq_runScript, withValue_snd]
    obtain ⟨k, hk⟩ := runScript_log_take processline
      ((drainLines toStr EOL buffer).map Event.processline) w
    refine ⟨(drainLines toStr EOL buffer).take k, ?_, ?_⟩
    · rw [List.length_take]
      exact Nat.le_trans (Nat.min_le_right _ _) (length_drainLines_le toStr EOL buffer)
    · rw [hk, List.map_take]

/-- C19 at the buffer `"a\nb"` with a callback that never throws. -/
theorem drain_terminates_within_length_witness :
    (∃ o, getLine id CRLF [97, 10, 98] = some o ∧
      o.newBuffer = ([97, 10, 98] : Buffer).take o.newBuffer.length ∧
      o.newBuffer.length < ([97, 10, 98] : Buffer).length) ∧
    (drainLines id CRLF [97, 10, 98]).length ≤ ([97, 10, 98] : Buffer).length ∧
    ∃ lines : List Buffer, lines.length ≤ ([97, 10, 98] : Buffer).length ∧
      (drain (quiet : Callback Empty Unit Buffer) id CRLF [97, 10, 98]
          { cb := (), log := [] }).2.log =
        ([] : List (Event Buffer)) ++ lines.map Event.processline :=
  ⟨(drain_terminates_within_length quiet id CRLF [97, 10, 98]
      { cb := (), log := [] }).1 (by decide),
   (drain_terminates_within_length quiet id CRLF [97, 10, 98] { cb := (), log := [] }).2⟩

/-! ### The two-byte terminator on bare newlines -/

theorem intercalate_append_singleton (sep : Buffer) (init : List Buffer) (l : Buffer)
    (hinit : init ≠ []) :
    sep.intercalate (init ++ [l]) = sep.intercalate init ++ sep ++ l := by
  cases init with
  | nil => exact absurd rfl hinit
  | cons a rest => exact intercalate_concat sep a rest l

theorem dropLast_intercalate_append_singleton (sep : Buffer) (init : List Buffer) (m : Buffer)
    (hm : m ≠ []) :
    (sep.intercalate (init ++ [m])).dropLast = sep.intercalate (init ++ [m.dropLast]) := by
  cases init with
  | nil => simp [intercalate_singleton]
  | cons a rest =>
    rw [intercalate_append_singleton sep _ m (by simp),
      intercalate_append_singleton sep _ m.dropLast (by simp),
      List.dropLast_append_of_ne_nil _ hm]

theorem intercalate_append_singleton_ne_nil (sep : Buffer) (init : List Buffer) (m : Buffer)
    (hm : m ≠ []) : sep.intercalate (init ++ [m]) ≠ [] := by
  cases init with
  | nil => simpa [intercalate_singleton] using hm
  | cons a rest =>
    rw [intercalate_append_singleton sep _ m (by simp)]
    simp [hm]

/-- With the two-byte terminator, lines joined by a bare newline: every match of
the newline also takes away the byte before it, the last byte of the line
before. -/
theorem drainLines_CRLF_bare_newlines {T : Type} (toStr : Buffer → T) (init : List Buffer)
    (last : Buffer) (hno : ∀ l ∈ init ++ [last], 0x0a ∉ l) (hmid : ∀ l ∈ init, l ≠ [])
    (hnil : init = [] → last ≠ []) (hfirst : ∀ f ∈ init.head?, 2 ≤ f.length) :
    drainLines toStr CRLF (LF.intercalate (init ++ [last])) =
      toStr last :: (init.reverse).map (fun l => toStr l.dropLast) := by
  induction init using List.reverseRecOn generalizing last with
  | nil =>
    rw [List.nil_append, intercalate_singleton,
      drainLines_no_newline toStr CRLF last (hnil rfl) (hno last (by simp))]
    rfl
  | append_singleton init m ih =>
    have hm : m ≠ [] := hmid m (by simp)
    have hlast : 0x0a ∉ last := hno last (by simp)
    have hg := getLine_append_newline toStr CRLF (LF.intercalate (init ++ [m])) last
      (intercalate_append_singleton_ne_nil LF init m hm) hlast
    rw [if_pos (by decide), dropLast_intercalate_append_singleton LF init m hm] at hg
    rw [intercalate_append_singleton LF _ last (by simp)]
    have hshape : LF.intercalate (init ++ [m]) ++ LF ++ last =
        LF.intercalate (init ++ [m]) ++ 0x0a :: last := by
      simp [LF]
    rw [hshape, drainLines_of_some toStr CRLF _ _ hg]
    simp only
    rw [ih m.dropLast]
    · simp
    · intro l hl
      rcases List.mem_append.mp hl with h1 | h1
      · exact hno l (by simp [h1])
      · rw [List.mem_singleton] at h1
        subst h1
        exact fun hc => hno m (by simp) (List.dropLast_subset m hc)
    · exact fun l hl => hmid l (by simp [hl])
    · intro hinit
      subst hinit
      have h2 : 2 ≤ m.length := hfirst m (by simp)
      intro hc
      have := congrArg List.length hc
      rw [List.length_dropLast] at this
      simp at this
      omega
    · intro f hf
      cases init with
      | nil => simp at hf
      | cons a rest => exact hfirst f (by simpa using hf)

/-- With the two-byte terminator, a newline matched at `i > 0` takes the byte
before it away with it, whatever that byte is. -/
theorem getLine_CRLF_discards_previous_byte {T : Type} (toStr : Buffer → T)
    (buffer : Buffer) (i : Nat) (hi : 0 < i) (h : buffer[i]? = some 0x0a)
    (hlast : ∀ j, i < j → buffer[j]? ≠ some 0x0a) :
    ∃ o b, getLine toStr CRLF buffer = some o ∧
      o.line = toStr (buffer.drop (i + 1)) ∧ o.newBuffer = buffer.take (i - 1) ∧
      buffer[i - 1]? = some b ∧
      buffer = o.newBuffer ++ b :: 0x0a :: buffer.drop (i + 1) := by
  have hlen : i < buffer.length := by
    by_contra hc
    rw [List.getElem?_eq_none (by omega)] at h
    exact absurd h (by simp)
  have hg := getLine_of_last_newline toStr CRLF buffer i hi h hlast
  rw [if_pos (by decide)] at hg
  have hi1 : i - 1 < buffer.length := by omega
  have hbi : buffer[i] = 0x0a := by
    rw [List.getElem?_eq_getElem hlen] at h
    injection h
  refine ⟨_, buffer[i - 1], hg, rfl, rfl, List.getElem?_eq_getElem hi1, ?_⟩
  have h1 : buffer.drop (i - 1) = buffer[i - 1] :: buffer.drop (i - 1 + 1) :=
    List.drop_eq_getElem_cons hi1
  have h2 : buffer.drop i = buffer[i] :: buffer.drop (i + 1) := List.drop_eq_getElem_cons hlen
  have h3 : i - 1 + 1 = i := by omega
  rw [h3, h2, hbi] at h1
  simp only
  rw [← h1, List.take_append_drop]

/-- C20, as the code has it: with the two-byte terminator the content
`"ab\n\ncd"`, whose lines are `"ab"`, `""`, `"cd"`, emits `"cd"` then `"ab"`.
The line `"ab"` is not the last line and it keeps its last byte: the byte the
match took away is the newline before it. -/
theorem readEachLine_crlf_bare_newline_keeps_last_byte :
    ([97, 98, 10, 10, 99, 100] : Buffer).splitOn 0x0a = [[97, 98], [], [99, 100]] ∧
    emitted CRLF id (fun _ _ => 0) none [97, 98, 10, 10, 99, 100] = [[99, 100], [97, 98]] := by
  refine ⟨by decide, ?_⟩
  have hg : getLine id CRLF [97, 98, 10, 10, 99, 100] =
      some { line := [99, 100], newBuffer := [97, 98] } := by decide
  rw [emitted, emittedWith_single id CRLF _ chunkSize none _ (by decide) (by decide),
    drainLines_of_some id CRLF _ _ hg,
    drainLines_no_newline id CRLF [97, 98] (by decide) (by decide)]
  rfl

/-- C20, amended: with the two-byte terminator, whenever `getLine` matches 0x0A
at an index `i > 0` it leaves the byte at index `i - 1` out of both the line
and the remainder, whatever that byte is. So for a file of at most 65536 bytes
whose lines hold no 0x0A and are joined by bare `"\n"`, where every line but
the last is non-empty and the first line has at least two bytes, the last line
is emitted whole and then every other line without its last byte, in reverse
file order. -/
theorem readEachLine_crlf_bare_newline_loses_last_byte {T : Type} (toStr : Buffer → T)
    (fill : String → Nat → Nat) (encoding : Option String) (first : Buffer)
    (mid : List Buffer) (last : Buffer) (hfirst : 2 ≤ first.length)
    (hmid : ∀ l ∈ mid, l ≠ []) (hno : ∀ l ∈ first :: mid ++ [last], 0x0a ∉ l)
    (hsize : (LF.intercalate (first :: mid ++ [last])).length ≤ 65536) :
    (∀ (buffer : Buffer) (i : Nat), 0 < i → buffer[i]? = some 0x0a →
      (∀ j, i < j → buffer[j]? ≠ some 0x0a) →
      ∃ o b, getLine toStr CRLF buffer = some o ∧
        o.line = toStr (buffer.drop (i + 1)) ∧ o.newBuffer = buffer.take (i - 1) ∧
        buffer[i - 1]? = some b ∧
        buffer = o.newBuffer ++ b :: 0x0a :: buffer.drop (i + 1)) ∧
    emitted CRLF toStr fill encoding (LF.intercalate (first :: mid ++ [last])) =
      toStr last :: ((first :: mid).reverse).map (fun l => toStr l.dropLast) := by
  refine ⟨fun buffer i hi h hlast =>
    getLine_CRLF_discards_previous_byte toStr buffer i hi h hlast, ?_⟩
  have hfne : first ≠ [] := by
    rintro rfl
    simp at hfirst
  have hne : LF.intercalate (first :: mid ++ [last]) ≠ [] := by
    rw [intercalate_append_singleton LF _ last (by simp)]
    simp [LF]
  rw [emitted, emittedWith_single toStr CRLF fill chunkSize encoding _ hne hsize,
    drainLines_CRLF_bare_newlines toStr (first :: mid) last hno
      (fun l hl => by
        rcases List.mem_cons.mp hl with h1 | h1
        · rw [h1]
          exact hfne
        · exact hmid l h1)
      (fun hc => by simp at hc)
      (fun f hf => by
        simp at hf
        rw [← hf]
        exact hfirst)]

/-- C20, amended, at `"ab\ncd"`: the calls are `"cd"`, then `"a"`. -/
theorem readEachLine_crlf_bare_newline_loses_last_byte_witness :
    (LF.intercalate ([97, 98] :: [] ++ [[99, 100]]) = [97, 98, 10, 99, 100]) ∧
    emitted CRLF id (fun _ _ => 0) none (LF.intercalate ([97, 98] :: [] ++ [[99, 100]])) =
      [[99, 100], [97]] :=
  ⟨by decide,
   (readEachLine_crlf_bare_newline_loses_last_byte id (fun _ _ => 0) none [97, 98] []
      [99, 100] (by decide) (by decide) (by decide) (by decide)).2⟩

end ReadEachLine
